import Mathlib

/-!
Shallow embedding of the stream, event and buffer features of the
Node-JS-Concepts repository (files under src/features), together with
proofs of the behavioural properties in its specification.

Conventions: JavaScript strings are sequences of UTF-16 code units
and are modelled as lists of natural numbers (the buffer module,
which never slices strings, uses lists of scalar-value characters);
promises are modelled as explicit result values of type Except; the
cooperative single-threaded event loop of the runtime is modelled as
a deterministic step function whose schedule follows the source: all
data events of a burst fire before any write callback (the callbacks
are 10ms timers), and the drain event fires only once the writable
buffer has fully emptied.  Pushed chunks become UTF-8 buffers, so the
writable counts UTF-8 bytes against its high-water mark and lone
surrogates produced by slicing become replacement characters.
-/

namespace NodeConcepts

/-! ## Text encoding (UTF-16 strings and UTF-8 buffers)

JavaScript strings are sequences of UTF-16 code units; a string value
is modelled as a list of code units.  Pushing a string slice into the
non-object-mode readable converts it to a UTF-8 buffer
(`Buffer.from(slice, 'utf8')`): a well-formed surrogate pair becomes
one 4-byte code point, a lone surrogate becomes the replacement
character U+FFFD (3 bytes), any other unit encodes as its own code
point.  The writable counts these bytes against `highWaterMark`, and
`chunk.toString()` decodes the buffer back to code units. -/

/-- UTF-8 encoding of one code point (1 to 4 bytes). -/
def utf8EncodeChar (n : Nat) : List Nat :=
  if n < 128 then [n]
  else if n < 2048 then [192 + n / 64, 128 + n % 64]
  else if n < 65536 then [224 + n / 4096, 128 + n / 64 % 64, 128 + n % 64]
  else [240 + n / 262144, 128 + n / 4096 % 64, 128 + n / 64 % 64, 128 + n % 64]

theorem utf8EncodeChar_length_pos (n : Nat) : 1 ≤ (utf8EncodeChar n).length := by
  unfold utf8EncodeChar
  split
  · simp
  · split
    · simp
    · split <;> simp

theorem utf8EncodeChar_length_two (n : Nat) (h : 128 ≤ n) :
    2 ≤ (utf8EncodeChar n).length := by
  unfold utf8EncodeChar
  rw [if_neg (by omega)]
  split
  · simp
  · split <;> simp

theorem utf8EncodeChar_length_le_four (n : Nat) : (utf8EncodeChar n).length ≤ 4 := by
  unfold utf8EncodeChar
  split
  · simp
  · split
    · simp
    · split <;> simp

theorem utf8EncodeChar_lt_256 (n : Nat) (h : n < 2097152) :
    ∀ b ∈ utf8EncodeChar n, b < 256 := by
  intro b hb
  unfold utf8EncodeChar at hb
  by_cases h1 : n < 128
  · rw [if_pos h1] at hb
    simp at hb
    omega
  · rw [if_neg h1] at hb
    by_cases h2 : n < 2048
    · rw [if_pos h2] at hb
      simp at hb
      rcases hb with rfl | rfl <;> omega
    · rw [if_neg h2] at hb
      by_cases h3 : n < 65536
      · rw [if_pos h3] at hb
        simp at hb
        rcases hb with rfl | rfl | rfl <;> omega
      · rw [if_neg h3] at hb
        simp at hb
        rcases hb with rfl | rfl | rfl | rfl <;> omega

/-- Scan a UTF-16 code-unit sequence into code points, as
`Buffer.from(string, 'utf8')` does: a high surrogate followed by a
low surrogate combines into one astral code point; a lone surrogate
becomes U+FFFD (65533). -/
def utf16Scan : List Nat → List Nat
  | [] => []
  | u :: rest =>
    if 55296 ≤ u ∧ u < 56320 then
      match rest with
      | v :: rest2 =>
        if 56320 ≤ v ∧ v < 57344 then
          (65536 + (u - 55296) * 1024 + (v - 56320)) :: utf16Scan rest2
        else 65533 :: utf16Scan (v :: rest2)
      | [] => [65533]
    else if 56320 ≤ u ∧ u < 57344 then 65533 :: utf16Scan rest
    else u :: utf16Scan rest

/-- UTF-16 code units of one code point (the decoding direction used
by `buf.toString()`). -/
def cpToUtf16 (cp : Nat) : List Nat :=
  if cp < 65536 then [cp]
  else [55296 + (cp - 65536) / 1024, 56320 + (cp - 65536) % 1024]

/-- The byte length of the UTF-8 buffer a pushed chunk becomes; this
is what the writable adds to its buffered length and compares with
`highWaterMark`. -/
def chunkBytes (ch : List Nat) : Nat :=
  ((utf16Scan ch).map utf8EncodeChar).flatten.length

/-- The code units `chunk.toString()` appends to the accumulated
result: the UTF-8 buffer decoded back (lone surrogates of the pushed
slice have become U+FFFD). -/
def chunkOut (ch : List Nat) : List Nat :=
  ((utf16Scan ch).map cpToUtf16).flatten

theorem utf16Scan_pair (u v : Nat) (r : List Nat)
    (hu : 55296 ≤ u ∧ u < 56320) (hv : 56320 ≤ v ∧ v < 57344) :
    utf16Scan (u :: v :: r) =
      (65536 + (u - 55296) * 1024 + (v - 56320)) :: utf16Scan r := by
  simp only [utf16Scan, if_pos hu, if_pos hv]

theorem utf16Scan_hi_nolo (u v : Nat) (r : List Nat)
    (hu : 55296 ≤ u ∧ u < 56320) (hv : ¬ (56320 ≤ v ∧ v < 57344)) :
    utf16Scan (u :: v :: r) = 65533 :: utf16Scan (v :: r) := by
  simp only [utf16Scan, if_pos hu, if_neg hv]

theorem utf16Scan_hi_end (u : Nat) (hu : 55296 ≤ u ∧ u < 56320) :
    utf16Scan [u] = [65533] := by
  simp only [utf16Scan, if_pos hu]

theorem utf16Scan_lo (u : Nat) (r : List Nat)
    (hu : 56320 ≤ u ∧ u < 57344) :
    utf16Scan (u :: r) = 65533 :: utf16Scan r := by
  have h1 : ¬ (55296 ≤ u ∧ u < 56320) := by omega
  cases r with
  | nil => simp only [utf16Scan, if_neg h1, if_pos hu]
  | cons v r2 => simp only [utf16Scan, if_neg h1, if_pos hu]

theorem utf16Scan_normal (u : Nat) (r : List Nat)
    (hu : ¬ (55296 ≤ u ∧ u < 57344)) :
    utf16Scan (u :: r) = u :: utf16Scan r := by
  have h1 : ¬ (55296 ≤ u ∧ u < 56320) := by omega
  have h2 : ¬ (56320 ≤ u ∧ u < 57344) := by omega
  cases r with
  | nil => simp only [utf16Scan, if_neg h1, if_neg h2]
  | cons v r2 => simp only [utf16Scan, if_neg h1, if_neg h2]

theorem chunkBytes_of_scan (ch : List Nat) :
    chunkBytes ch = ((utf16Scan ch).map utf8EncodeChar).flatten.length := rfl

theorem bytesOfCps_cons (cp : Nat) (t : List Nat) :
    (((cp :: t).map utf8EncodeChar).flatten).length =
      (utf8EncodeChar cp).length + ((t.map utf8EncodeChar).flatten).length := by
  simp

theorem utf8EncodeChar_replacement_length : (utf8EncodeChar 65533).length = 3 := by
  decide


/-! ## Chunk production (pipingExample.ts, manualBackpressure)

The readable side pushes `input.slice(i, i + chunkSize)` for
`i = 0, chunkSize, 2*chunkSize, ...` while `i < input.length`.
`jsSlice` models `String.prototype.slice` (negative indices count from
the end, out-of-range indices clamp).  `pushLoop` mirrors the `for`
loop literally, with explicit fuel so that non-termination of the loop
for a non-positive step is observable; `chunks` is the terminating
chunk list for a positive chunk size, related to the literal loop by
`pushLoop_eq_chunks`. -/

/-- Model of JavaScript `String.prototype.slice` on a list of
characters: negative indices count from the end, indices clamp to the
string bounds. -/
def jsSlice (s : List Nat) (a b : Int) : List Nat :=
  let len : Int := s.length
  let lo := if a < 0 then max (len + a) 0 else min a len
  let hi := if b < 0 then max (len + b) 0 else min b len
  (s.drop lo.toNat).take (hi - lo).toNat

/-- Literal model of the chunk-pushing loop
`for (let i = 0; i < input.length; i += chunkSize) push(input.slice(i, i + chunkSize))`
with explicit fuel; `none` means the loop has not finished within the
given number of iterations. -/
def pushLoop (s : List Nat) (c : Int) : Nat → Int → Option (List (List Nat))
  | 0, _ => none
  | fuel + 1, i =>
    if i < (s.length : Int) then
      match pushLoop s c fuel (i + c) with
      | some rest => some (jsSlice s i (i + c) :: rest)
      | none => none
    else some []

/-- The list of chunks produced by the readable side for a positive
chunk size: successive slices of length `c` (the final chunk may be
shorter). -/
def chunks (c : Nat) : List Nat → List (List Nat)
  | [] => []
  | ch :: rest => (ch :: rest.take (c - 1)) :: chunks c (rest.drop (c - 1))
termination_by s => s.length
decreasing_by
  simp only [List.length_drop, List.length_cons]
  omega

theorem chunks_join (c : Nat) (s : List Nat) : (chunks c s).flatten = s := by
  induction s using chunks.induct c with
  | case1 => simp [chunks]
  | case2 ch rest ih =>
    simp [chunks, ih]

theorem chunks_nil (c : Nat) : chunks c [] = [] := by
  simp [chunks]

/-- Head/tail unfolding of `chunks` in terms of take and drop, for a
positive chunk size. -/
theorem chunks_cons_eq (c : Nat) (hc : 1 ≤ c) (s : List Nat) (hs : s ≠ []) :
    chunks c s = s.take c :: chunks c (s.drop c) := by
  cases s with
  | nil => exact absurd rfl hs
  | cons ch rest =>
    have h1 : c - 1 + 1 = c := by omega
    simp only [chunks]
    rw [← h1, List.take_succ_cons, List.drop_succ_cons]
    simp only [Nat.add_sub_cancel]

/-- For a positive chunk size the literal push loop terminates (given
enough fuel) and produces exactly `chunks`. -/
theorem pushLoop_eq_chunks (s : List Nat) (c : Nat) (hc : 1 ≤ c) :
    ∀ fuel (i : Nat), s.length - i < fuel →
      pushLoop s (c : Int) fuel i = some (chunks c (s.drop i)) := by
  intro fuel
  induction fuel with
  | zero => intro i h; omega
  | succ f ih =>
    intro i h
    by_cases hi : (i : Int) < (s.length : Int)
    · have hilt : i < s.length := by exact_mod_cast hi
      have hrec : pushLoop s (c : Int) f (i + c) = some (chunks c (s.drop (i + c))) := by
        have := ih (i + c) (by omega)
        have hcast : ((i : Int) + (c : Int)) = ((i + c : Nat) : Int) := by push_cast; ring
        rw [hcast]
        exact this
      have hslice : jsSlice s (i : Int) ((i : Int) + (c : Int)) = (s.drop i).take c := by
        unfold jsSlice
        have h1 : ¬ ((i : Int) < 0) := by omega
        have h2 : ¬ ((i : Int) + (c : Int) < 0) := by omega
        simp only [h1, if_false, h2]
        have hlo : min (i : Int) (s.length : Int) = (i : Int) := by
          rw [min_eq_left]
          exact le_of_lt hi
        rw [hlo, Int.toNat_natCast]
        rcases le_or_lt ((i : Int) + (c : Int)) (s.length : Int) with hle | hgt
        · have hhi : min ((i : Int) + (c : Int)) (s.length : Int) = (i : Int) + (c : Int) :=
            min_eq_left hle
          rw [hhi]
          have : ((i : Int) + (c : Int) - (i : Int)).toNat = c := by omega
          rw [this]
        · have hhi : min ((i : Int) + (c : Int)) (s.length : Int) = (s.length : Int) :=
            min_eq_right (le_of_lt hgt)
          rw [hhi]
          have hlen : ((s.length : Int) - (i : Int)).toNat = s.length - i := by omega
          rw [hlen]
          have hdroplen : (s.drop i).length = s.length - i := by simp
          have hcle : s.length - i ≤ c := by omega
          rw [List.take_of_length_le (by omega), List.take_of_length_le (by omega)]
      have hstep : chunks c (s.drop i) = (s.drop i).take c :: chunks c (s.drop (i + c)) := by
        have hne : s.drop i ≠ [] := by
          intro hnil
          have := congrArg List.length hnil
          simp at this
          omega
        rw [chunks_cons_eq c hc _ hne, List.drop_drop]
      rw [pushLoop, if_pos hi, hrec]
      simp [hslice, hstep]
    · have hge : s.length ≤ i := by
        by_contra hcon
        exact hi (by exact_mod_cast Nat.lt_of_not_le hcon)
      rw [pushLoop, if_neg hi]
      rw [List.drop_eq_nil_of_le hge, chunks_nil]

/-! ## The bounded pipeline run (pipingExample.ts, manualBackpressure)

The writable side is created with `highWaterMark: 2` (bytes) and a
write implementation that completes each chunk on a 10ms timer and
appends the chunk to the accumulated result.  The data handler calls
`writable.write(chunk)`; when that returns `false` (the buffered
length after adding the chunk has reached the high-water mark) it
increments the pause counter, pauses the readable and resumes it on
the next `drain` event.  `drain` fires only when the writable buffer
has emptied completely.

Because the write callbacks are timers and the data events of the
flowing readable fire in a synchronous cascade, the run proceeds in
bursts: chunks are offered until the buffered length reaches the
high-water mark (one pause) or the source is exhausted; then all
buffered writes complete in offer order; then, if paused, `drain`
fires and the next burst starts with an empty buffer.  `runLoop`
below is that deterministic schedule.

The write callback of the demo always succeeds; the pipeline however
wires `writable.on('error', reject)`, so the run is modelled
generically over a consumer failure schedule `failAt` (which chunk
indices the consumer fails on); the demo consumer is `noFail`.  The
run also returns the list of observable events, so that ordering
facts (nothing is offered after a failure, no finish after a failure)
are statable. -/

/-- The `highWaterMark: 2` of the writable stream, counted in bytes
as in the source. -/
def hwm : Nat := 2

/-- Observable events of one bounded pipeline run. -/
inductive Ev where
  | offer (i : Nat)
  | accepted (i : Nat)
  | failed (i : Nat)
  | paused
  | drained
  | finished
deriving DecidableEq, Repr

/-- The value a successful run resolves with:
`{ output, pauses }` of the source. -/
structure PipeResult where
  output : List Nat
  pauses : Nat
deriving DecidableEq, Repr

/-- One burst of data events: chunks are offered (written) in order
until the buffered length reaches the high-water mark, which pauses
the readable, or until the queue is exhausted.  Returns the offered
chunks, the chunks still queued, and whether a pause happened. -/
def offerBurst : List (Nat × List Nat) → Nat →
    List (Nat × List Nat) × List (Nat × List Nat) × Bool
  | [], _ => ([], [], false)
  | (i, ch) :: rest, buf =>
    if hwm ≤ buf + chunkBytes ch then ([(i, ch)], rest, true)
    else
      let r := offerBurst rest (buf + chunkBytes ch)
      ((i, ch) :: r.1, r.2.1, r.2.2)

/-- Completion of the buffered writes of one burst, in offer order:
each write callback either succeeds and appends its chunk to the
result, or reports an error, which aborts the run with that single
failure. -/
def completeBurst (failAt : Nat → Bool) :
    List (Nat × List Nat) → List Ev × Except Nat (List Nat)
  | [] => ([], Except.ok [])
  | (i, ch) :: rest =>
    if failAt i then ([Ev.failed i], Except.error i)
    else
      match completeBurst failAt rest with
      | (evs, Except.error j) => (Ev.accepted i :: evs, Except.error j)
      | (evs, Except.ok out) => (Ev.accepted i :: evs, Except.ok (chunkOut ch ++ out))

theorem offerBurst_append : ∀ (q : List (Nat × List Nat)) (b : Nat),
    (offerBurst q b).1 ++ (offerBurst q b).2.1 = q := by
  intro q
  induction q with
  | nil => intro b; simp [offerBurst]
  | cons x rest ih =>
    intro b
    obtain ⟨i, ch⟩ := x
    by_cases hb : hwm ≤ b + chunkBytes ch
    · simp [offerBurst, hb]
    · simp only [offerBurst, hb, if_false]
      simpa using ih (b + chunkBytes ch)

theorem offerBurst_rem_length_le : ∀ (q : List (Nat × List Nat)) (b : Nat),
    (offerBurst q b).2.1.length ≤ q.length := by
  intro q b
  have h := congrArg List.length (offerBurst_append q b)
  simp only [List.length_append] at h
  omega

theorem offerBurst_offered_ne_nil (x : Nat × List Nat) (xs : List (Nat × List Nat))
    (b : Nat) : (offerBurst (x :: xs) b).1 ≠ [] := by
  obtain ⟨i, ch⟩ := x
  by_cases hb : hwm ≤ b + chunkBytes ch
  · simp [offerBurst, hb]
  · simp [offerBurst, hb]

theorem offerBurst_rem_length_lt (x : Nat × List Nat) (xs : List (Nat × List Nat))
    (b : Nat) : (offerBurst (x :: xs) b).2.1.length < (x :: xs).length := by
  have h := congrArg List.length (offerBurst_append (x :: xs) b)
  simp only [List.length_append, List.length_cons] at h
  have hne := offerBurst_offered_ne_nil x xs b
  have h1 : 1 ≤ (offerBurst (x :: xs) b).1.length := by
    cases hoff : (offerBurst (x :: xs) b).1 with
    | nil => exact absurd hoff hne
    | cons a l => simp
  simp only [List.length_cons]
  omega

/-- The deterministic schedule of one run: alternate offer bursts and
write-callback completions until the queue is exhausted (finish) or a
write callback reports an error (reject). -/
def runLoop (failAt : Nat → Bool) :
    List (Nat × List Nat) → List Nat → Nat → List Ev × Except Nat PipeResult
  | [], out, p => ([Ev.finished], Except.ok ⟨out, p⟩)
  | x :: xs, out, p =>
    let ob := offerBurst (x :: xs) 0
    let offerEvs := ob.1.map (fun e => Ev.offer e.1)
    let cb := completeBurst failAt ob.1
    match cb.2 with
    | Except.error j =>
      (offerEvs ++ (if ob.2.2 then [Ev.paused] else []) ++ cb.1, Except.error j)
    | Except.ok delta =>
      let next := runLoop failAt ob.2.1 (out ++ delta) (p + (if ob.2.2 then 1 else 0))
      (offerEvs ++ (if ob.2.2 then [Ev.paused] else []) ++ cb.1 ++
        (if ob.2.2 then [Ev.drained] else []) ++ next.1, next.2)
termination_by q _ _ => q.length
decreasing_by
  exact offerBurst_rem_length_lt x xs 0

/-- The demo consumer: the write callback always succeeds
(`callback()` with no error in the source). -/
def noFail : Nat → Bool := fun _ => false

/-- The bounded pipeline run `manualBackpressure(input, chunkSize)`
of the source, generalized over the consumer failure schedule.
Returns the observable event list together with the settled promise
value. -/
def manualBackpressure (input : List Nat) (chunkSize : Nat) (failAt : Nat → Bool) :
    List Ev × Except Nat PipeResult :=
  runLoop failAt ((chunks chunkSize input).enum) [] 0

/-- The declared default of the `chunkSize` parameter in the source
signature `manualBackpressure(input: string, chunkSize = 2)`. -/
def defaultChunkSize : Nat := 2

/-- The pause count observed by a successful run. -/
def pausesOf (input : List Nat) (chunkSize : Nat) : Nat :=
  match (manualBackpressure input chunkSize noFail).2 with
  | Except.ok r => r.pauses
  | Except.error _ => 0

/-! ## Pause counting

`countPauses` walks the chunk lengths with the current buffered
length: a chunk whose write brings the buffer to the high-water mark
causes one pause and the buffer is empty again by the time the next
chunk is offered (resume happens on drain, which fires when the
buffer has fully emptied). -/

/-- Number of times `writable.write` returns false during the whole
run, as a function of the successive chunk byte lengths. -/
def countPauses : List Nat → Nat → Nat
  | [], _ => 0
  | l :: ls, buf =>
    if hwm ≤ buf + l then 1 + countPauses ls 0 else countPauses ls (buf + l)

/-- The chunk lengths produced by `chunks` depend only on the input
length; `chunkLens c n` mirrors `chunks` on lengths. -/
def chunkLens (c : Nat) : Nat → List Nat
  | 0 => []
  | m + 1 => (1 + min (c - 1) m) :: chunkLens c (m - (c - 1))

theorem chunks_map_length (c : Nat) (s : List Nat) :
    (chunks c s).map List.length = chunkLens c s.length := by
  induction s using chunks.induct c with
  | case1 => simp [chunks, chunkLens]
  | case2 ch rest ih =>
    simp only [chunks, List.map_cons, List.length_cons, List.length_take, chunkLens, ih,
      List.length_drop]
    congr 1
    omega

theorem offerBurst_count : ∀ (q : List (Nat × List Nat)) (b : Nat),
    q ≠ [] →
    countPauses (q.map (fun e => chunkBytes e.2)) b =
      (if (offerBurst q b).2.2 then 1 else 0) +
        countPauses ((offerBurst q b).2.1.map (fun e => chunkBytes e.2)) 0 := by
  intro q
  induction q with
  | nil => intro b h; exact absurd rfl h
  | cons x rest ih =>
    intro b _
    obtain ⟨i, ch⟩ := x
    by_cases hb : hwm ≤ b + chunkBytes ch
    · simp [offerBurst, hb, countPauses]
    · simp only [offerBurst, hb, if_false, List.map_cons, countPauses]
      cases rest with
      | nil => simp [offerBurst, countPauses]
      | cons y ys => exact ih (b + chunkBytes ch) (by simp)

theorem completeBurst_ok (failAt : Nat → Bool) :
    ∀ (off : List (Nat × List Nat)), (∀ e ∈ off, failAt e.1 = false) →
    completeBurst failAt off =
      (off.map (fun e => Ev.accepted e.1),
        Except.ok ((off.map (fun e => chunkOut e.2)).flatten)) := by
  intro off
  induction off with
  | nil => intro h; simp [completeBurst]
  | cons x rest ih =>
    intro h
    obtain ⟨i, ch⟩ := x
    have hx : failAt i = false := h (i, ch) (by simp)
    have hr : ∀ e ∈ rest, failAt e.1 = false := fun e he => h e (by simp [he])
    simp [completeBurst, hx, ih hr]

/-- A run whose consumer never fails on a queued chunk: it finishes,
its output is the concatenation of the queued chunks in order, and
its pause count is `countPauses` of the chunk lengths. -/
theorem runLoop_ok_aux (failAt : Nat → Bool) :
    ∀ (n : Nat) (q : List (Nat × List Nat)), q.length ≤ n →
    ∀ (out : List Nat) (p : Nat),
    (∀ e ∈ q, failAt e.1 = false) →
    ∃ tr, runLoop failAt q out p =
      (tr, Except.ok ⟨out ++ (q.map (fun e => chunkOut e.2)).flatten,
        p + countPauses (q.map (fun e => chunkBytes e.2)) 0⟩) ∧
      Ev.finished ∈ tr := by
  intro n
  induction n with
  | zero =>
    intro q hq0 out p _
    have : q = [] := List.eq_nil_of_length_eq_zero (by omega)
    subst this
    refine ⟨[Ev.finished], ?_, by simp⟩
    simp [runLoop, countPauses]
  | succ m ih =>
    intro q hqlen out p hq
    cases q with
    | nil =>
      refine ⟨[Ev.finished], ?_, by simp⟩
      simp [runLoop, countPauses]
    | cons x xs =>
      have hsplit := offerBurst_append (x :: xs) 0
      have hoffmem : ∀ e ∈ (offerBurst (x :: xs) 0).1, failAt e.1 = false := by
        intro e he
        apply hq
        rw [← hsplit]
        exact List.mem_append_left _ he
      have hremmem : ∀ e ∈ (offerBurst (x :: xs) 0).2.1, failAt e.1 = false := by
        intro e he
        apply hq
        rw [← hsplit]
        exact List.mem_append_right _ he
      have hcb := completeBurst_ok failAt _ hoffmem
      have hlt := offerBurst_rem_length_lt x xs 0
      have hlenrem : (offerBurst (x :: xs) 0).2.1.length ≤ m := by
        simp only [List.length_cons] at hlt hqlen
        omega
      obtain ⟨tr, htr, hfin⟩ :=
        ih _ hlenrem
          (out ++ ((offerBurst (x :: xs) 0).1.map (fun e => chunkOut e.2)).flatten)
          (p + (if (offerBurst (x :: xs) 0).2.2 then 1 else 0)) hremmem
      refine ⟨(offerBurst (x :: xs) 0).1.map (fun e => Ev.offer e.1) ++
        (if (offerBurst (x :: xs) 0).2.2 then [Ev.paused] else []) ++
        ((offerBurst (x :: xs) 0).1.map (fun e => Ev.accepted e.1)) ++
        (if (offerBurst (x :: xs) 0).2.2 then [Ev.drained] else []) ++ tr, ?_, by simp [hfin]⟩
      rw [runLoop]
      simp only [hcb, htr]
      have houtput : out ++ ((offerBurst (x :: xs) 0).1.map (fun e => chunkOut e.2)).flatten ++
          ((offerBurst (x :: xs) 0).2.1.map (fun e => chunkOut e.2)).flatten =
          out ++ ((x :: xs).map (fun e => chunkOut e.2)).flatten := by
        rw [List.append_assoc, ← List.flatten_append, ← List.map_append, hsplit]
      have hpauses : p + (if (offerBurst (x :: xs) 0).2.2 then 1 else 0) +
          countPauses ((offerBurst (x :: xs) 0).2.1.map (fun e => chunkBytes e.2)) 0 =
          p + countPauses ((x :: xs).map (fun e => chunkBytes e.2)) 0 := by
        rw [offerBurst_count (x :: xs) 0 (by simp)]
        omega
      rw [houtput, hpauses]

/-- A run whose consumer never fails: it finishes, its output is the
concatenation of the queued chunks in order, and its pause count is
`countPauses` of the chunk lengths. -/
theorem runLoop_ok (failAt : Nat → Bool) (q : List (Nat × List Nat))
    (out : List Nat) (p : Nat) (hq : ∀ e ∈ q, failAt e.1 = false) :
    ∃ tr, runLoop failAt q out p =
      (tr, Except.ok ⟨out ++ (q.map (fun e => chunkOut e.2)).flatten,
        p + countPauses (q.map (fun e => chunkBytes e.2)) 0⟩) ∧
      Ev.finished ∈ tr :=
  runLoop_ok_aux failAt q.length q le_rfl out p hq

/-- A run of the source pipeline with the demo consumer resolves;
the output is the concatenation of the decoded chunks in order and
the pause count is determined by the UTF-8 byte lengths of the
chunks. -/
theorem manualBackpressure_ok (input : List Nat) (c : Nat) :
    ∃ tr, manualBackpressure input c noFail =
      (tr, Except.ok ⟨((chunks c input).map chunkOut).flatten,
        countPauses ((chunks c input).map chunkBytes) 0⟩) ∧
      Ev.finished ∈ tr := by
  obtain ⟨tr, htr, hfin⟩ :=
    runLoop_ok noFail ((chunks c input).enum) [] 0 (fun e _ => rfl)
  refine ⟨tr, ?_, hfin⟩
  rw [manualBackpressure, htr]
  have h1 : (chunks c input).enum.map (fun e => chunkOut e.2) =
      (chunks c input).map chunkOut := by
    have hmm : (chunks c input).enum.map (fun e => chunkOut e.2) =
        ((chunks c input).enum.map Prod.snd).map chunkOut := by
      rw [List.map_map]
      rfl
    rw [hmm, List.enum_map_snd]
  have h2 : (chunks c input).enum.map (fun e => chunkBytes e.2) =
      (chunks c input).map chunkBytes := by
    have hmm : (chunks c input).enum.map (fun e => chunkBytes e.2) =
        ((chunks c input).enum.map Prod.snd).map chunkBytes := by
      rw [List.map_map]
      rfl
    rw [hmm, List.enum_map_snd]
  rw [h1, h2]
  simp

theorem pausesOf_eq (input : List Nat) (c : Nat) :
    pausesOf input c = countPauses ((chunks c input).map chunkBytes) 0 := by
  obtain ⟨tr, htr, _⟩ := manualBackpressure_ok input c
  rw [pausesOf, htr]

/-- Closed form of the pause count for chunk size 1: the writable
buffer reaches the 2-byte high-water mark after every second 1-byte
chunk. -/
theorem countPauses_chunkLens_one : ∀ (n : Nat), countPauses (chunkLens 1 n) 0 = n / 2 := by
  intro n
  induction n using Nat.strong_induction_on with
  | _ n ih =>
    match n with
    | 0 => simp [chunkLens, countPauses]
    | 1 => simp [chunkLens, countPauses, hwm]
    | (m + 2) =>
      have hm := ih m (by omega)
      have hml : chunkLens 1 (m + 2) = 1 :: 1 :: chunkLens 1 m := by
        simp [chunkLens]
      rw [hml]
      simp only [countPauses, hwm]
      norm_num
      omega

/-- Closed form of the pause count for chunk size at least 2: every
full chunk reaches the high-water mark by itself; a final partial
chunk pauses exactly when it has at least 2 bytes. -/
theorem countPauses_chunkLens_big (c : Nat) (hc : 2 ≤ c) :
    ∀ (n : Nat), countPauses (chunkLens c n) 0 =
      n / c + (if 2 ≤ n % c then 1 else 0) := by
  intro n
  induction n using Nat.strong_induction_on with
  | _ n ih =>
    match n with
    | 0 => simp [chunkLens, countPauses]
    | (m + 1) =>
      by_cases hcase : m + 1 ≤ c
      · have hmin : min (c - 1) m = m := by omega
        have hz : m - (c - 1) = 0 := by omega
        have hml : chunkLens c (m + 1) = [1 + m] := by
          simp [chunkLens, hmin, hz]
        rw [hml]
        by_cases h2 : 2 ≤ m + 1
        · have hif : hwm ≤ 0 + (1 + m) := by simp [hwm]; omega
          simp only [countPauses, if_pos hif]
          rcases Nat.lt_or_ge (m + 1) c with hlt | hge
          · have hd : (m + 1) / c = 0 := Nat.div_eq_of_lt hlt
            have hm2 : (m + 1) % c = m + 1 := Nat.mod_eq_of_lt hlt
            simp [countPauses, hd, hm2, h2]
          · have heq : m + 1 = c := by omega
            rw [heq]
            simp [countPauses, Nat.div_self (by omega : 0 < c), Nat.mod_self]
        · have hm0 : m = 0 := by omega
          subst hm0
          have hif : ¬ (hwm ≤ 0 + (1 + 0)) := by simp [hwm]
          simp only [countPauses, if_neg hif]
          have hd : 1 / c = 0 := Nat.div_eq_of_lt (by omega)
          have hm2 : 1 % c = 1 := Nat.mod_eq_of_lt (by omega)
          simp [countPauses, hd, hm2]
      · have hmin : min (c - 1) m = c - 1 := by omega
        have hml : chunkLens c (m + 1) = c :: chunkLens c (m + 1 - c) := by
          have h1 : 1 + (c - 1) = c := by omega
          have h2 : m - (c - 1) = m + 1 - c := by omega
          simp [chunkLens, hmin, h1, h2]
        rw [hml]
        have hif : hwm ≤ 0 + c := by simp [hwm]; omega
        simp only [countPauses, if_pos hif]
        have hrec := ih (m + 1 - c) (by omega)
        rw [hrec]
        have hsplit : m + 1 = (m + 1 - c) + c := by omega
        have hd : (m + 1) / c = (m + 1 - c) / c + 1 := by
          conv_lhs => rw [hsplit]
          rw [Nat.add_div_right _ (by omega : 0 < c)]
        have hm2 : (m + 1) % c = (m + 1 - c) % c := by
          conv_lhs => rw [hsplit]
          rw [Nat.add_mod_right]
        rw [hd, hm2]
        omega

/-! ## Byte arithmetic of the pause count -/

theorem chunkBytes_nil : chunkBytes [] = 0 := rfl

theorem chunkBytes_pair (u v : Nat) (r : List Nat)
    (hu : 55296 ≤ u ∧ u < 56320) (hv : 56320 ≤ v ∧ v < 57344) :
    chunkBytes (u :: v :: r) =
      (utf8EncodeChar (65536 + (u - 55296) * 1024 + (v - 56320))).length +
        chunkBytes r := by
  rw [chunkBytes, utf16Scan_pair u v r hu hv, bytesOfCps_cons]
  rfl

theorem chunkBytes_hi_nolo (u v : Nat) (r : List Nat)
    (hu : 55296 ≤ u ∧ u < 56320) (hv : ¬ (56320 ≤ v ∧ v < 57344)) :
    chunkBytes (u :: v :: r) = 3 + chunkBytes (v :: r) := by
  rw [chunkBytes, utf16Scan_hi_nolo u v r hu hv, bytesOfCps_cons,
    utf8EncodeChar_replacement_length]
  rfl

theorem chunkBytes_hi_end (u : Nat) (hu : 55296 ≤ u ∧ u < 56320) :
    chunkBytes [u] = 3 := by
  rw [chunkBytes, utf16Scan_hi_end u hu]
  decide

theorem chunkBytes_lo (u : Nat) (r : List Nat) (hu : 56320 ≤ u ∧ u < 57344) :
    chunkBytes (u :: r) = 3 + chunkBytes r := by
  rw [chunkBytes, utf16Scan_lo u r hu, bytesOfCps_cons,
    utf8EncodeChar_replacement_length]
  rfl

theorem chunkBytes_normal (u : Nat) (r : List Nat)
    (hu : ¬ (55296 ≤ u ∧ u < 57344)) :
    chunkBytes (u :: r) = (utf8EncodeChar u).length + chunkBytes r := by
  rw [chunkBytes, utf16Scan_normal u r hu, bytesOfCps_cons]
  rfl

theorem chunkBytes_pos (s : List Nat) (hs : s ≠ []) : 1 ≤ chunkBytes s := by
  cases s with
  | nil => exact absurd rfl hs
  | cons u r =>
    by_cases hhi : 55296 ≤ u ∧ u < 56320
    · cases r with
      | nil =>
        rw [chunkBytes_hi_end u hhi]
        omega
      | cons v r2 =>
        by_cases hlo : 56320 ≤ v ∧ v < 57344
        · rw [chunkBytes_pair u v r2 hhi hlo]
          have := utf8EncodeChar_length_pos (65536 + (u - 55296) * 1024 + (v - 56320))
          omega
        · rw [chunkBytes_hi_nolo u v r2 hhi hlo]
          omega
    · by_cases hlo : 56320 ≤ u ∧ u < 57344
      · rw [chunkBytes_lo u r hlo]
        omega
      · rw [chunkBytes_normal u r (by omega)]
        have := utf8EncodeChar_length_pos u
        omega

theorem chunkBytes_single_ge2 (u : Nat) (h : 128 ≤ u) : 2 ≤ chunkBytes [u] := by
  by_cases hhi : 55296 ≤ u ∧ u < 56320
  · rw [chunkBytes_hi_end u hhi]
    omega
  · by_cases hlo : 56320 ≤ u ∧ u < 57344
    · rw [chunkBytes_lo u [] hlo, chunkBytes_nil]
      omega
    · rw [chunkBytes_normal u [] (by omega), chunkBytes_nil]
      have := utf8EncodeChar_length_two u h
      omega

theorem chunkBytes_two_ge2 (u v : Nat) (r : List Nat) : 2 ≤ chunkBytes (u :: v :: r) := by
  by_cases hhi : 55296 ≤ u ∧ u < 56320
  · by_cases hlo : 56320 ≤ v ∧ v < 57344
    · rw [chunkBytes_pair u v r hhi hlo]
      have := utf8EncodeChar_length_two (65536 + (u - 55296) * 1024 + (v - 56320))
        (by omega)
      omega
    · rw [chunkBytes_hi_nolo u v r hhi hlo]
      omega
  · by_cases hlo : 56320 ≤ u ∧ u < 57344
    · rw [chunkBytes_lo u (v :: r) hlo]
      omega
    · rw [chunkBytes_normal u (v :: r) (by omega)]
      have h1 := utf8EncodeChar_length_pos u
      have h2 := chunkBytes_pos (v :: r) (by simp)
      omega

/-- UTF-8 conversion is subadditive under splitting a code-unit
sequence: splitting can only turn a 4-byte surrogate pair into two
3-byte replacement characters. -/
theorem chunkBytes_append_le_aux :
    ∀ (n : Nat) (a b : List Nat), a.length ≤ n →
    chunkBytes (a ++ b) ≤ chunkBytes a + chunkBytes b := by
  intro n
  induction n with
  | zero =>
    intro a b ha
    have : a = [] := List.eq_nil_of_length_eq_zero (by omega)
    subst this
    simp
  | succ m ih =>
    intro a b ha
    cases a with
    | nil => simp
    | cons u a2 =>
      simp only [List.length_cons] at ha
      by_cases hhi : 55296 ≤ u ∧ u < 56320
      · cases a2 with
        | nil =>
          cases b with
          | nil => simp
          | cons w b2 =>
            simp only [List.cons_append, List.nil_append]
            by_cases hlo : 56320 ≤ w ∧ w < 57344
            · rw [chunkBytes_pair u w b2 hhi hlo, chunkBytes_hi_end u hhi,
                chunkBytes_lo w b2 hlo]
              have := utf8EncodeChar_length_le_four
                (65536 + (u - 55296) * 1024 + (w - 56320))
              omega
            · rw [chunkBytes_hi_nolo u w b2 hhi hlo, chunkBytes_hi_end u hhi]
        | cons v a3 =>
          simp only [List.cons_append]
          by_cases hlo : 56320 ≤ v ∧ v < 57344
          · rw [chunkBytes_pair u v (a3 ++ b) hhi hlo, chunkBytes_pair u v a3 hhi hlo]
            have hrec := ih a3 b (by simp only [List.length_cons] at ha; omega)
            omega
          · rw [chunkBytes_hi_nolo u v (a3 ++ b) hhi hlo,
              chunkBytes_hi_nolo u v a3 hhi hlo]
            have hrec := ih (v :: a3) b (by simp only [List.length_cons] at ha ⊢; omega)
            simp only [List.cons_append] at hrec
            omega
      · by_cases hlo : 56320 ≤ u ∧ u < 57344
        · simp only [List.cons_append]
          rw [chunkBytes_lo u (a2 ++ b) hlo, chunkBytes_lo u a2 hlo]
          have hrec := ih a2 b (by omega)
          omega
        · simp only [List.cons_append]
          rw [chunkBytes_normal u (a2 ++ b) (by omega), chunkBytes_normal u a2 (by omega)]
          have hrec := ih a2 b (by omega)
          omega

theorem chunkBytes_append_le (a b : List Nat) :
    chunkBytes (a ++ b) ≤ chunkBytes a + chunkBytes b :=
  chunkBytes_append_le_aux a.length a b le_rfl

theorem chunkBytes_le_chunks_sum_aux (c : Nat) (hc : 1 ≤ c) :
    ∀ (n : Nat) (s : List Nat), s.length ≤ n →
    chunkBytes s ≤ ((chunks c s).map chunkBytes).sum := by
  intro n
  induction n with
  | zero =>
    intro s hs
    have : s = [] := List.eq_nil_of_length_eq_zero (by omega)
    subst this
    simp [chunks_nil, chunkBytes_nil]
  | succ m ih =>
    intro s hs
    by_cases hne : s = []
    · subst hne
      simp [chunks_nil, chunkBytes_nil]
    · rw [chunks_cons_eq c hc s hne, List.map_cons, List.sum_cons]
      have h1 : chunkBytes s ≤ chunkBytes (s.take c) + chunkBytes (s.drop c) := by
        conv_lhs => rw [← List.take_append_drop c s]
        exact chunkBytes_append_le _ _
      have h2 : chunkBytes (s.drop c) ≤ ((chunks c (s.drop c)).map chunkBytes).sum := by
        apply ih
        have hlen : (s.drop c).length = s.length - c := by simp
        have hslen : 1 ≤ s.length := by
          cases s with
          | nil => exact absurd rfl hne
          | cons a l => simp
        omega
      omega

theorem chunkBytes_le_chunks_sum (c : Nat) (hc : 1 ≤ c) (s : List Nat) :
    chunkBytes s ≤ ((chunks c s).map chunkBytes).sum :=
  chunkBytes_le_chunks_sum_aux c hc s.length s le_rfl

theorem countPauses_eq_zero_sum :
    ∀ (lens : List Nat) (b : Nat), lens ≠ [] → countPauses lens b = 0 →
    b + lens.sum < hwm := by
  intro lens
  induction lens with
  | nil => intro b h _; exact absurd rfl h
  | cons l ls ih =>
    intro b _ hz
    simp only [countPauses] at hz
    by_cases hcond : hwm ≤ b + l
    · rw [if_pos hcond] at hz
      omega
    · rw [if_neg hcond] at hz
      cases ls with
      | nil =>
        simp only [List.sum_cons, List.sum_nil]
        omega
      | cons l2 ls2 =>
        have := ih (b + l) (by simp) hz
        simp only [List.sum_cons] at this ⊢
        omega

theorem utf16Scan_eq_self (s : List Nat)
    (hs : ∀ u ∈ s, ¬ (55296 ≤ u ∧ u < 57344)) : utf16Scan s = s := by
  induction s with
  | nil => rfl
  | cons u t ih =>
    rw [utf16Scan_normal u t (hs u (by simp))]
    rw [ih (fun x hx => hs x (by simp [hx]))]

theorem flatten_cpToUtf16_eq_self (s : List Nat) (hs : ∀ u ∈ s, u < 65536) :
    (s.map cpToUtf16).flatten = s := by
  induction s with
  | nil => rfl
  | cons u t ih =>
    simp only [List.map_cons, List.flatten_cons]
    rw [cpToUtf16, if_pos (hs u (by simp))]
    rw [ih (fun x hx => hs x (by simp [hx]))]
    rfl

theorem chunkOut_eq_self (s : List Nat)
    (hs : ∀ u ∈ s, u < 65536 ∧ ¬ (55296 ≤ u ∧ u < 57344)) :
    chunkOut s = s := by
  rw [chunkOut, utf16Scan_eq_self s (fun u hu => (hs u hu).2)]
  exact flatten_cpToUtf16_eq_self s (fun u hu => (hs u hu).1)

theorem flatten_utf8_ascii_length (s : List Nat) (hs : ∀ u ∈ s, u < 128) :
    ((s.map utf8EncodeChar).flatten).length = s.length := by
  induction s with
  | nil => rfl
  | cons u t ih =>
    simp only [List.map_cons, List.flatten_cons, List.length_append]
    rw [utf8EncodeChar, if_pos (hs u (by simp))]
    rw [ih (fun x hx => hs x (by simp [hx]))]
    simp
    omega

theorem chunkBytes_ascii (s : List Nat) (hs : ∀ u ∈ s, u < 128) :
    chunkBytes s = s.length := by
  rw [chunkBytes, utf16Scan_eq_self s (by intro u hu; have := hs u hu; omega)]
  exact flatten_utf8_ascii_length s hs

theorem mem_of_mem_chunks (c : Nat) (s ch : List Nat) (u : Nat)
    (hch : ch ∈ chunks c s) (hu : u ∈ ch) : u ∈ s := by
  have h := chunks_join c s
  rw [← h]
  exact List.mem_flatten.mpr ⟨ch, hch, hu⟩

/-- For inputs free of surrogate code units the decoded output of the
run is the input itself: no chunk boundary can split a character. -/
theorem output_eq_of_noSurrogate (c : Nat) (input : List Nat)
    (hwf : ∀ u ∈ input, u < 65536 ∧ ¬ (55296 ≤ u ∧ u < 57344)) :
    ((chunks c input).map chunkOut).flatten = input := by
  have h1 : (chunks c input).map chunkOut = (chunks c input).map id := by
    apply List.map_congr_left
    intro ch hch
    exact chunkOut_eq_self ch
      (fun u hu => hwf u (mem_of_mem_chunks c input ch u hch hu))
  rw [h1, List.map_id, chunks_join]

/-- For ASCII inputs the chunk byte lengths are the chunk character
counts, which depend only on the input length. -/
theorem chunks_map_bytes_ascii (c : Nat) (s : List Nat) (hs : ∀ u ∈ s, u < 128) :
    (chunks c s).map chunkBytes = chunkLens c s.length := by
  have h1 : (chunks c s).map chunkBytes = (chunks c s).map List.length := by
    apply List.map_congr_left
    intro ch hch
    exact chunkBytes_ascii ch (fun u hu => hs u (mem_of_mem_chunks c s ch u hch hu))
  rw [h1, chunks_map_length]

/-! ## The error path

`completeBurst_err` and `runLoop_err`: if the consumer reports an
error on some queued chunk, the run rejects with the first such
failure, the failure event is the last event of the run (nothing is
offered and nothing is accepted afterwards), and the run never
finishes. -/

theorem completeBurst_err (failAt : Nat → Bool) :
    ∀ (off : List (Nat × List Nat)) (f : Nat × List Nat),
    off.find? (fun e => failAt e.1) = some f →
    ∃ evs, completeBurst failAt off = (evs, Except.error f.1) ∧
      evs ≠ [] ∧ evs.getLast? = some (Ev.failed f.1) ∧
      Ev.finished ∉ evs ∧ (∀ i, Ev.offer i ∉ evs) := by
  intro off
  induction off with
  | nil => intro f h; simp at h
  | cons x rest ih =>
    intro f h
    obtain ⟨i, ch⟩ := x
    by_cases hx : failAt i = true
    · rw [List.find?_cons_of_pos _ (by simpa using hx)] at h
      obtain rfl : f = (i, ch) := by injection h with h1; exact h1.symm
      refine ⟨[Ev.failed i], ?_, by simp, by simp, by simp, by simp⟩
      simp [completeBurst, hx]
    · rw [List.find?_cons_of_neg _ (by simpa using hx)] at h
      obtain ⟨evs, hcb, hne, hlast, hnf, hno⟩ := ih f h
      refine ⟨Ev.accepted i :: evs, ?_, by simp, ?_, ?_, ?_⟩
      · have hxf : failAt i = false := by simpa using hx
        simp [completeBurst, hxf, hcb]
      · rw [show Ev.accepted i :: evs = [Ev.accepted i] ++ evs from rfl,
          List.getLast?_append_of_ne_nil _ hne]
        exact hlast
      · simp only [List.mem_cons]
        rintro (hc | hc)
        · exact Ev.noConfusion hc
        · exact hnf hc
      · intro j
        simp only [List.mem_cons]
        rintro (hc | hc)
        · exact Ev.noConfusion hc
        · exact hno j hc

theorem find?_append_some (p : Nat × List Nat → Bool) :
    ∀ (l1 l2 : List (Nat × List Nat)) (f : Nat × List Nat),
    l1.find? p = some f → (l1 ++ l2).find? p = some f := by
  intro l1
  induction l1 with
  | nil => intro l2 f h; simp at h
  | cons x rest ih =>
    intro l2 f h
    by_cases hx : p x = true
    · rw [List.find?_cons_of_pos _ hx] at h
      rw [List.cons_append, List.find?_cons_of_pos _ hx]
      exact h
    · rw [List.find?_cons_of_neg _ hx] at h
      rw [List.cons_append, List.find?_cons_of_neg _ hx]
      exact ih l2 f h

theorem find?_append_none (p : Nat × List Nat → Bool) :
    ∀ (l1 l2 : List (Nat × List Nat)),
    l1.find? p = none → (l1 ++ l2).find? p = l2.find? p := by
  intro l1
  induction l1 with
  | nil => intro l2 h; simp
  | cons x rest ih =>
    intro l2 h
    by_cases hx : p x = true
    · rw [List.find?_cons_of_pos _ hx] at h
      exact absurd h (by simp)
    · rw [List.find?_cons_of_neg _ hx] at h
      rw [List.cons_append, List.find?_cons_of_neg _ hx]
      exact ih l2 h

/-- A run whose consumer reports an error on some queued chunk
rejects with the first such failure; the failure is the last
observable event (in particular nothing is offered afterwards) and
the run never finishes. -/
theorem runLoop_err_aux (failAt : Nat → Bool) :
    ∀ (n : Nat) (q : List (Nat × List Nat)), q.length ≤ n →
    ∀ (out : List Nat) (p : Nat) (f : Nat × List Nat),
    q.find? (fun e => failAt e.1) = some f →
    ∃ tr, runLoop failAt q out p = (tr, Except.error f.1) ∧
      tr ≠ [] ∧ tr.getLast? = some (Ev.failed f.1) ∧ Ev.finished ∉ tr := by
  intro n
  induction n with
  | zero =>
    intro q hq0 out p f h
    have : q = [] := List.eq_nil_of_length_eq_zero (by omega)
    subst this
    simp at h
  | succ m ih =>
    intro q hqlen out p f h
    cases q with
    | nil => simp at h
    | cons x xs =>
      have hsplit := offerBurst_append (x :: xs) 0
      cases hoff : (offerBurst (x :: xs) 0).1.find? (fun e => failAt e.1) with
      | some g =>
        have hfg : g = f := by
          have := find?_append_some _ _ (offerBurst (x :: xs) 0).2.1 _ hoff
          rw [hsplit] at this
          rw [this] at h
          exact Option.some.inj h
        subst hfg
        obtain ⟨evs, hcb, hne, hlast, hnf, _⟩ := completeBurst_err failAt _ _ hoff
        refine ⟨(offerBurst (x :: xs) 0).1.map (fun e => Ev.offer e.1) ++
          (if (offerBurst (x :: xs) 0).2.2 then [Ev.paused] else []) ++ evs, ?_, ?_, ?_, ?_⟩
        · rw [runLoop]
          simp only [hcb]
        · simp [hne]
        · rw [List.append_assoc, List.getLast?_append_of_ne_nil _ (by simp [hne]),
            List.getLast?_append_of_ne_nil _ hne]
          exact hlast
        · simp only [List.mem_append, List.mem_map]
          rintro ((⟨e, _, he⟩ | hc) | hc)
          · exact Ev.noConfusion he
          · rcases hib : (offerBurst (x :: xs) 0).2.2 with _ | _ <;>
              rw [hib] at hc <;> simp at hc
          · exact hnf hc
      | none =>
        have hoffmem : ∀ e ∈ (offerBurst (x :: xs) 0).1, failAt e.1 = false := by
          intro e he
          have := List.find?_eq_none.mp hoff e he
          simpa using this
        have hrem : (offerBurst (x :: xs) 0).2.1.find? (fun e => failAt e.1) = some f := by
          have := find?_append_none _ _ (offerBurst (x :: xs) 0).2.1 hoff
          rw [hsplit] at this
          rw [← this]
          exact h
        have hcb := completeBurst_ok failAt _ hoffmem
        have hlt := offerBurst_rem_length_lt x xs 0
        have hlenrem : (offerBurst (x :: xs) 0).2.1.length ≤ m := by
          simp only [List.length_cons] at hlt hqlen
          omega
        obtain ⟨tr, htr, htne, htlast, htnf⟩ :=
          ih _ hlenrem (out ++ ((offerBurst (x :: xs) 0).1.map (fun e => chunkOut e.2)).flatten)
            (p + (if (offerBurst (x :: xs) 0).2.2 then 1 else 0)) f hrem
        refine ⟨(offerBurst (x :: xs) 0).1.map (fun e => Ev.offer e.1) ++
          (if (offerBurst (x :: xs) 0).2.2 then [Ev.paused] else []) ++
          ((offerBurst (x :: xs) 0).1.map (fun e => Ev.accepted e.1)) ++
          (if (offerBurst (x :: xs) 0).2.2 then [Ev.drained] else []) ++ tr, ?_, ?_, ?_, ?_⟩
        · rw [runLoop]
          simp only [hcb, htr]
        · simp [htne]
        · rw [List.getLast?_append_of_ne_nil _ htne]
          exact htlast
        · simp only [List.mem_append, List.mem_map]
          rintro ((((⟨e, _, he⟩ | hc) | ⟨e, _, he⟩) | hc) | hc)
          · exact Ev.noConfusion he
          · rcases hib : (offerBurst (x :: xs) 0).2.2 with _ | _ <;>
              rw [hib] at hc <;> simp at hc
          · exact Ev.noConfusion he
          · rcases hib : (offerBurst (x :: xs) 0).2.2 with _ | _ <;>
              rw [hib] at hc <;> simp at hc
          · exact htnf hc

theorem find?_enumFrom_props (failAt : Nat → Bool) :
    ∀ (l : List (List Nat)) (s : Nat) (f : Nat × List Nat),
    (List.enumFrom s l).find? (fun e => failAt e.1) = some f →
    failAt f.1 = true ∧ s ≤ f.1 ∧ f.1 < s + l.length ∧
      (∀ k, s ≤ k → k < f.1 → failAt k = false) := by
  intro l
  induction l with
  | nil => intro s f h; simp at h
  | cons a rest ih =>
    intro s f h
    rw [List.enumFrom_cons] at h
    by_cases hx : failAt s = true
    · rw [List.find?_cons_of_pos _ (by simpa using hx)] at h
      obtain rfl : f = (s, a) := (Option.some.inj h).symm
      exact ⟨hx, le_refl s, by simp, fun k hk1 hk2 => by omega⟩
    · rw [List.find?_cons_of_neg _ (by simpa using hx)] at h
      obtain ⟨h1, h2, h3, h4⟩ := ih (s + 1) f h
      refine ⟨h1, by omega, by simp only [List.length_cons]; omega, ?_⟩
      intro k hk1 hk2
      rcases Nat.eq_or_lt_of_le hk1 with rfl | hlt
      · simpa using hx
      · exact h4 k (by omega) hk2

theorem find?_enumFrom_isSome (failAt : Nat → Bool) :
    ∀ (l : List (List Nat)) (s i : Nat), s ≤ i → i < s + l.length →
    failAt i = true →
    ∃ f, (List.enumFrom s l).find? (fun e => failAt e.1) = some f := by
  intro l
  induction l with
  | nil =>
    intro s i h1 h2 h3
    simp only [List.length_nil] at h2
    omega
  | cons a rest ih =>
    intro s i h1 h2 h3
    rw [List.enumFrom_cons]
    by_cases hx : failAt s = true
    · exact ⟨(s, a), List.find?_cons_of_pos _ (by simpa using hx)⟩
    · rw [List.find?_cons_of_neg _ (by simpa using hx)]
      have hne : i ≠ s := fun hceq => hx (hceq ▸ h3)
      exact ih (s + 1) i (by omega) (by simp only [List.length_cons] at h2; omega) h3

/-- The bounded pipeline run, consumer failing on some chunk index
that actually occurs: the run rejects with the least failing index,
the failure event is last (nothing is offered afterwards) and no
success result is produced. -/
theorem manualBackpressure_err (input : List Nat) (c : Nat) (failAt : Nat → Bool)
    (i : Nat) (hi : i < (chunks c input).length) (hfi : failAt i = true) :
    ∃ tr j, manualBackpressure input c failAt = (tr, Except.error j) ∧
      failAt j = true ∧ j < (chunks c input).length ∧
      (∀ k, k < j → failAt k = false) ∧
      tr.getLast? = some (Ev.failed j) ∧ Ev.finished ∉ tr := by
  obtain ⟨f, hf⟩ := find?_enumFrom_isSome failAt (chunks c input) 0 i (by omega)
    (by omega) hfi
  have henum : (chunks c input).enum.find? (fun e => failAt e.1) = some f := by
    rw [List.enum]
    exact hf
  obtain ⟨hp1, _, hp3, hp4⟩ := find?_enumFrom_props failAt (chunks c input) 0 f hf
  obtain ⟨tr, htr, _, hlast, hnf⟩ :=
    runLoop_err_aux failAt (chunks c input).enum.length _ le_rfl [] 0 f henum
  refine ⟨tr, f.1, ?_, hp1, by omega, fun k hk => hp4 k (by omega) hk, hlast, hnf⟩
  rw [manualBackpressure, htr]

/-- With a non-positive step the push loop never finishes on a
non-empty input: the loop index never advances past 0, so the guard
`i < input.length` stays true forever. -/
theorem pushLoop_none_of_nonpos (s : List Nat) (hs : s ≠ []) (c : Int) (hc : c ≤ 0) :
    ∀ fuel (i : Int), i ≤ 0 → pushLoop s c fuel i = none := by
  intro fuel
  induction fuel with
  | zero => intro i _; rfl
  | succ f ih =>
    intro i hi
    have hlen : 1 ≤ s.length := by
      cases s with
      | nil => exact absurd rfl hs
      | cons a l => simp
    have hguard : i < (s.length : Int) := by
      have : (1 : Int) ≤ (s.length : Int) := by exact_mod_cast hlen
      omega
    rw [pushLoop, if_pos hguard, ih (i + c) (by omega)]

/-! ## The uppercase transform run (pipingExample.ts, pipeToUppercase)

`Readable.from([input])` emits the whole input as one chunk; the
transform maps `chunk.toString().toUpperCase()` over each chunk; the
writable concatenates.  `String.prototype.toUpperCase` applies the
Unicode full case mapping; `ucMap` models it exactly on the ASCII
range and includes two representative non-ASCII entries of the full
mapping (U+00E9, 233, to U+00C9, 201; and U+00DF, 223, to "SS",
which is not character-wise); all remaining code units are left
unchanged, which is not faithful for other cased non-ASCII letters,
so the theorems below are stated on the ASCII fragment only and the
counterexample uses the listed entries. -/

/-- ASCII upper-case mapping on code units: the 26 lower-case code
units 97-122 map down by 32, all other code units are unchanged. -/
def upCode (n : Nat) : Nat :=
  if 97 ≤ n ∧ n ≤ 122 then n - 32 else n

theorem upCode_idem (n : Nat) : upCode (upCode n) = upCode n := by
  unfold upCode
  by_cases hc : 97 ≤ n ∧ n ≤ 122
  · rw [if_pos hc, if_neg (by omega)]
  · rw [if_neg hc, if_neg hc]

/-- Fragment model of the Unicode full case mapping applied by
`String.prototype.toUpperCase` (see the section comment). -/
def ucMap (u : Nat) : List Nat :=
  if 97 ≤ u ∧ u ≤ 122 then [u - 32]
  else if u = 223 then [83, 83]
  else if u = 233 then [201]
  else [u]

/-- The uppercase transform run: the single chunk emitted by
`Readable.from([input])` passes through the upper-casing transform
and the results are concatenated by the collecting writable. -/
def pipeToUppercase (input : List Nat) : List Nat :=
  (([input].map (fun chunk => (chunk.map ucMap).flatten))).flatten

theorem ucMap_ascii (u : Nat) (h : u < 128) : ucMap u = [upCode u] := by
  unfold ucMap upCode
  by_cases hc : 97 ≤ u ∧ u ≤ 122
  · rw [if_pos hc, if_pos hc]
  · rw [if_neg hc, if_neg (by omega), if_neg (by omega), if_neg hc]

theorem flatten_ucMap_ascii (s : List Nat) (hs : ∀ u ∈ s, u < 128) :
    (s.map ucMap).flatten = s.map upCode := by
  induction s with
  | nil => rfl
  | cons u t ih =>
    simp only [List.map_cons, List.flatten_cons]
    rw [ucMap_ascii u (hs u (by simp)), ih (fun x hx => hs x (by simp [hx]))]
    rfl

theorem pipeToUppercase_ascii_map (s : List Nat) (hs : ∀ u ∈ s, u < 128) :
    pipeToUppercase s = s.map upCode := by
  rw [pipeToUppercase]
  simp only [List.map_cons, List.map_nil, List.flatten_cons, List.flatten_nil,
    List.append_nil]
  exact flatten_ucMap_ascii s hs

theorem upCode_lt_128 (u : Nat) (h : u < 128) : upCode u < 128 := by
  unfold upCode
  split <;> omega

/-! ## One-shot event notification (eventEmitter.ts)

The module wires a process-wide emitter: `onPingOnce` and
`onFileUploadedOnce` register a listener with `emitter.once(event,
callback)`; `emitPing` and `emitFileUploaded` call
`emitter.emit(event, message)`.  `emit` delivers the message to every
listener currently registered for that event, in registration order,
and removes the once-listeners; deliveries are recorded in a log of
(listener id, message) pairs, which is the observable behaviour
(callbacks themselves are opaque, so they are named by ids). -/

/-- A registered one-shot listener: event name and listener id. -/
structure EmState where
  pending : List (String × Nat)
deriving DecidableEq, Repr

/-- The calls the module exposes: `once e k` is
`onPingOnce`/`onFileUploadedOnce` (with `e` the wired event name and
`k` the callback id), `emit e m` is `emitPing`/`emitFileUploaded`. -/
inductive ECmd where
  | once (e : String) (k : Nat)
  | emit (e : String) (m : String)
deriving DecidableEq, Repr

/-- One step of the emitter: `once` appends a listener; `emit`
delivers the message to all currently registered listeners of that
event (in registration order) and removes them. -/
def estep : EmState × List (Nat × String) → ECmd → EmState × List (Nat × String)
  | (st, log), ECmd.once e k => (⟨st.pending ++ [(e, k)]⟩, log)
  | (st, log), ECmd.emit e m =>
    (⟨st.pending.filter (fun pr => pr.1 != e)⟩,
      log ++ (st.pending.filter (fun pr => pr.1 == e)).map (fun pr => (pr.2, m)))

/-- Run a sequence of calls against the fresh module-level emitter. -/
def erun (cmds : List ECmd) : EmState × List (Nat × String) :=
  cmds.foldl estep (⟨[]⟩, [])

/-- The messages delivered to listener id `k`, in order. -/
def deliveredTo (k : Nat) (log : List (Nat × String)) : List String :=
  (log.filter (fun en => en.1 == k)).map Prod.snd

/-- Does this call register listener id `k`? -/
def registersId (cmd : ECmd) (k : Nat) : Bool :=
  match cmd with
  | ECmd.once _ k2 => k2 == k
  | ECmd.emit _ _ => false

/-- Does this call emit event `e`? -/
def emitsEvent (cmd : ECmd) (e : String) : Bool :=
  match cmd with
  | ECmd.emit e2 _ => e2 == e
  | ECmd.once _ _ => false

theorem filter_swap {α : Type} (p q : α → Bool) :
    ∀ (l : List α), (l.filter p).filter q = (l.filter q).filter p := by
  intro l
  induction l with
  | nil => simp
  | cons a t ih =>
    by_cases hp : p a = true <;> by_cases hq : q a = true <;>
      simp [List.filter_cons, hp, hq, ih]

theorem estep_fresh (k : Nat) (cmd : ECmd) (st : EmState) (log : List (Nat × String))
    (hreg : registersId cmd k = false)
    (hp : st.pending.filter (fun pr => pr.2 == k) = []) :
    (estep (st, log) cmd).1.pending.filter (fun pr => pr.2 == k) = [] ∧
    (estep (st, log) cmd).2.filter (fun en => en.1 == k) =
      log.filter (fun en => en.1 == k) := by
  cases cmd with
  | once e k2 =>
    have hk2 : (k2 == k) = false := by simpa [registersId] using hreg
    constructor
    · simp [estep, List.filter_append, hp, hk2]
    · simp [estep]
  | emit e m =>
    constructor
    · simp only [estep]
      rw [filter_swap, hp]
      simp
    · simp only [estep, List.filter_append]
      have hnil : ((st.pending.filter (fun pr => pr.1 == e)).map
          (fun pr => (pr.2, m))).filter (fun en => en.1 == k) = [] := by
        rw [List.filter_eq_nil_iff]
        intro x hx
        obtain ⟨pr, hpr, rfl⟩ := List.mem_map.mp hx
        intro hk
        have hmem : pr ∈ st.pending.filter (fun pr => pr.2 == k) :=
          List.mem_filter.mpr ⟨(List.mem_filter.mp hpr).1, by simpa using hk⟩
        rw [hp] at hmem
        simp at hmem
      rw [hnil]
      simp

theorem estep_armed (k : Nat) (e : String) (cmd : ECmd) (st : EmState)
    (log : List (Nat × String))
    (hreg : registersId cmd k = false) (hem : emitsEvent cmd e = false)
    (hp : st.pending.filter (fun pr => pr.2 == k) = [(e, k)]) :
    (estep (st, log) cmd).1.pending.filter (fun pr => pr.2 == k) = [(e, k)] ∧
    (estep (st, log) cmd).2.filter (fun en => en.1 == k) =
      log.filter (fun en => en.1 == k) := by
  cases cmd with
  | once e2 k2 =>
    have hk2 : (k2 == k) = false := by simpa [registersId] using hreg
    constructor
    · simp [estep, List.filter_append, hp, hk2]
    · simp [estep]
  | emit e2 m =>
    have he2 : (e2 == e) = false := by simpa [emitsEvent] using hem
    have hne : e ≠ e2 := fun hcon => by simp [hcon] at he2
    constructor
    · simp only [estep]
      rw [filter_swap, hp]
      simp [List.filter_cons, hne]
    · simp only [estep, List.filter_append]
      have hnil : ((st.pending.filter (fun pr => pr.1 == e2)).map
          (fun pr => (pr.2, m))).filter (fun en => en.1 == k) = [] := by
        rw [List.filter_eq_nil_iff]
        intro x hx
        obtain ⟨pr, hpr, rfl⟩ := List.mem_map.mp hx
        intro hk
        have hmem : pr ∈ st.pending.filter (fun pr => pr.2 == k) :=
          List.mem_filter.mpr ⟨(List.mem_filter.mp hpr).1, by simpa using hk⟩
        rw [hp] at hmem
        have hpr1 : pr.1 = e2 := by
          have := (List.mem_filter.mp hpr).2
          simpa using this
        simp only [List.mem_singleton] at hmem
        rw [hmem] at hpr1
        exact hne hpr1
      rw [hnil]
      simp

/-- The firing step: an emit of the armed event delivers exactly one
message to listener `k` and removes the listener. -/
theorem estep_fire (k : Nat) (e : String) (m : String) (st : EmState)
    (log : List (Nat × String))
    (hp : st.pending.filter (fun pr => pr.2 == k) = [(e, k)]) :
    (estep (st, log) (ECmd.emit e m)).1.pending.filter (fun pr => pr.2 == k) = [] ∧
    (estep (st, log) (ECmd.emit e m)).2.filter (fun en => en.1 == k) =
      log.filter (fun en => en.1 == k) ++ [(k, m)] := by
  constructor
  · simp only [estep]
    rw [filter_swap, hp]
    simp [List.filter_cons]
  · simp only [estep, List.filter_append]
    have hgen : ∀ (l : List (String × Nat)),
        (l.map (fun pr => (pr.2, m))).filter (fun en => en.1 == k) =
          (l.filter (fun pr => pr.2 == k)).map (fun pr => (pr.2, m)) := by
      intro l
      induction l with
      | nil => simp
      | cons a t ih =>
        by_cases hk : (a.2 == k) = true <;>
          simp [List.filter_cons, hk, ih]
    have hone : ((st.pending.filter (fun pr => pr.1 == e)).map
        (fun pr => (pr.2, m))).filter (fun en => en.1 == k) = [(k, m)] := by
      rw [hgen, filter_swap, hp]
      simp [List.filter_cons]
    rw [hone]

theorem foldl_fresh (k : Nat) :
    ∀ (cmds : List ECmd) (st : EmState) (log : List (Nat × String)),
    (∀ cmd ∈ cmds, registersId cmd k = false) →
    st.pending.filter (fun pr => pr.2 == k) = [] →
    (cmds.foldl estep (st, log)).1.pending.filter (fun pr => pr.2 == k) = [] ∧
    (cmds.foldl estep (st, log)).2.filter (fun en => en.1 == k) =
      log.filter (fun en => en.1 == k) := by
  intro cmds
  induction cmds with
  | nil => intro st log _ hp; exact ⟨hp, rfl⟩
  | cons cmd rest ih =>
    intro st log hreg hp
    obtain ⟨h1, h2⟩ := estep_fresh k cmd st log (hreg cmd (by simp)) hp
    rcases hstep : estep (st, log) cmd with ⟨st2, log2⟩
    rw [hstep] at h1 h2
    have hfold : (cmd :: rest).foldl estep (st, log) = rest.foldl estep (st2, log2) := by
      simp [List.foldl_cons, hstep]
    rw [hfold]
    obtain ⟨g1, g2⟩ := ih st2 log2 (fun c hc => hreg c (by simp [hc])) h1
    exact ⟨g1, by rw [g2, h2]⟩

theorem foldl_armed (k : Nat) (e : String) :
    ∀ (cmds : List ECmd) (st : EmState) (log : List (Nat × String)),
    (∀ cmd ∈ cmds, registersId cmd k = false) →
    (∀ cmd ∈ cmds, emitsEvent cmd e = false) →
    st.pending.filter (fun pr => pr.2 == k) = [(e, k)] →
    (cmds.foldl estep (st, log)).1.pending.filter (fun pr => pr.2 == k) = [(e, k)] ∧
    (cmds.foldl estep (st, log)).2.filter (fun en => en.1 == k) =
      log.filter (fun en => en.1 == k) := by
  intro cmds
  induction cmds with
  | nil => intro st log _ _ hp; exact ⟨hp, rfl⟩
  | cons cmd rest ih =>
    intro st log hreg hem hp
    obtain ⟨h1, h2⟩ := estep_armed k e cmd st log (hreg cmd (by simp))
      (hem cmd (by simp)) hp
    rcases hstep : estep (st, log) cmd with ⟨st2, log2⟩
    rw [hstep] at h1 h2
    have hfold : (cmd :: rest).foldl estep (st, log) = rest.foldl estep (st2, log2) := by
      simp [List.foldl_cons, hstep]
    rw [hfold]
    obtain ⟨g1, g2⟩ := ih st2 log2 (fun c hc => hreg c (by simp [hc]))
      (fun c hc => hem c (by simp [hc])) h1
    exact ⟨g1, by rw [g2, h2]⟩

/-- One-shot delivery: if listener id `k` is registered once for event
`e`, no other call registers id `k`, and no call between the
registration and the first subsequent emission of `e` emits `e`, then
over the whole run the listener receives exactly the first subsequent
emission's message, once. -/
theorem erun_one_shot (pre mid post : List ECmd) (e : String) (k : Nat) (m : String)
    (hpre : ∀ cmd ∈ pre, registersId cmd k = false)
    (hmidr : ∀ cmd ∈ mid, registersId cmd k = false)
    (hpost : ∀ cmd ∈ post, registersId cmd k = false)
    (hmide : ∀ cmd ∈ mid, emitsEvent cmd e = false) :
    deliveredTo k (erun (pre ++ ECmd.once e k :: (mid ++ ECmd.emit e m :: post))).2
      = [m] := by
  unfold erun
  rw [List.foldl_append]
  obtain ⟨hA1, hA2⟩ := foldl_fresh k pre ⟨[]⟩ [] hpre (by simp)
  rcases hA : pre.foldl estep (⟨[]⟩, []) with ⟨Ast, Alog⟩
  rw [hA] at hA1 hA2
  rw [List.foldl_cons]
  have hB : estep (Ast, Alog) (ECmd.once e k) = (⟨Ast.pending ++ [(e, k)]⟩, Alog) := by
    simp [estep]
  rw [hB, List.foldl_append]
  have hB1 : (EmState.mk (Ast.pending ++ [(e, k)])).pending.filter
      (fun pr => pr.2 == k) = [(e, k)] := by
    simp only [List.filter_append, hA1]
    simp [List.filter_cons]
  obtain ⟨hC1, hC2⟩ := foldl_armed k e mid ⟨Ast.pending ++ [(e, k)]⟩ Alog hmidr hmide hB1
  rcases hC : mid.foldl estep (⟨Ast.pending ++ [(e, k)]⟩, Alog) with ⟨Cst, Clog⟩
  rw [hC] at hC1 hC2
  rw [List.foldl_cons]
  obtain ⟨hD1, hD2⟩ := estep_fire k e m Cst Clog hC1
  rcases hD : estep (Cst, Clog) (ECmd.emit e m) with ⟨Dst, Dlog⟩
  rw [hD] at hD1 hD2
  obtain ⟨hE1, hE2⟩ := foldl_fresh k post Dst Dlog hpost hD1
  rcases hE : post.foldl estep (Dst, Dlog) with ⟨Est, Elog⟩
  rw [hE] at hE1 hE2
  unfold deliveredTo
  rw [hE2, hD2, hC2, hA2]
  simp

/-! ## Buffers (buffer.ts, bufferFromData)

`Buffer.from(data)` encodes the string as UTF-8 bytes;
`buf.toString('base64')` is standard base64 with padding;
`buf.length` is the byte length.  The byte level is modelled with
`List Nat` (each entry below 256). -/

theorem char_toNat_lt (c : Char) : c.toNat < 1114112 := by
  rcases c.valid with h | ⟨_, h2⟩
  · have h1 := UInt32.toNat_lt_of_lt (n := c.val) (m := 55296) (by norm_num) h
    simp only [Char.toNat]
    omega
  · have h1 := UInt32.toNat_lt_of_lt (n := c.val) (m := 1114112) (by norm_num) h2
    simp only [Char.toNat]
    omega

/-- The UTF-8 byte sequence of a string, as produced by
`Buffer.from(data)`. -/
def utf8Encode (s : List Char) : List Nat :=
  (s.map (fun c => utf8EncodeChar c.toNat)).flatten

/-- Decode one UTF-8 encoded code point from the front of a byte
list, returning the code point and the remaining bytes; `none` on
malformed input. -/
def utf8DecodeOne : List Nat → Option (Nat × List Nat)
  | [] => none
  | b :: rest =>
    if b < 128 then some (b, rest)
    else if b < 224 then
      match rest with
      | b1 :: r =>
        if 192 ≤ b ∧ 128 ≤ b1 ∧ b1 < 192 then
          some ((b - 192) * 64 + (b1 - 128), r)
        else none
      | [] => none
    else if b < 240 then
      match rest with
      | b1 :: b2 :: r =>
        if 128 ≤ b1 ∧ b1 < 192 ∧ 128 ≤ b2 ∧ b2 < 192 then
          some ((b - 224) * 4096 + (b1 - 128) * 64 + (b2 - 128), r)
        else none
      | _ => none
    else if b < 248 then
      match rest with
      | b1 :: b2 :: b3 :: r =>
        if 128 ≤ b1 ∧ b1 < 192 ∧ 128 ≤ b2 ∧ b2 < 192 ∧ 128 ≤ b3 ∧ b3 < 192 then
          some ((b - 240) * 262144 + (b1 - 128) * 4096 +
            (b2 - 128) * 64 + (b3 - 128), r)
        else none
      | _ => none
    else none

theorem utf8DecodeOne_lt :
    ∀ (l : List Nat) (cp : Nat) (r : List Nat),
    utf8DecodeOne l = some (cp, r) → r.length < l.length := by
  intro l cp r h
  cases l with
  | nil => simp [utf8DecodeOne] at h
  | cons b rest =>
    simp only [utf8DecodeOne] at h
    by_cases h1 : b < 128
    · rw [if_pos h1] at h
      obtain ⟨rfl, rfl⟩ : cp = b ∧ r = rest := by
        have := Option.some.inj h
        exact ⟨congrArg Prod.fst this |>.symm, congrArg Prod.snd this |>.symm⟩
      simp
    · rw [if_neg h1] at h
      by_cases h2 : b < 224
      · rw [if_pos h2] at h
        cases rest with
        | nil => simp at h
        | cons b1 r1 =>
          by_cases hc : 192 ≤ b ∧ 128 ≤ b1 ∧ b1 < 192
          · simp only [if_pos hc] at h
            have := Option.some.inj h
            have hr : r = r1 := congrArg Prod.snd this |>.symm
            subst hr
            simp only [List.length_cons]
            omega
          · simp only [if_neg hc] at h
            exact absurd h (by simp)
      · rw [if_neg h2] at h
        by_cases h3 : b < 240
        · rw [if_pos h3] at h
          cases rest with
          | nil => simp at h
          | cons b1 r1 =>
            cases r1 with
            | nil => simp at h
            | cons b2 r2 =>
              by_cases hc : 128 ≤ b1 ∧ b1 < 192 ∧ 128 ≤ b2 ∧ b2 < 192
              · simp only [if_pos hc] at h
                have := Option.some.inj h
                have hr : r = r2 := congrArg Prod.snd this |>.symm
                subst hr
                simp
                omega
              · simp only [if_neg hc] at h
                exact absurd h (by simp)
        · by_cases h4 : b < 248
          · rw [if_neg h3, if_pos h4] at h
            cases rest with
            | nil => simp at h
            | cons b1 r1 =>
              cases r1 with
              | nil => simp at h
              | cons b2 r2 =>
                cases r2 with
                | nil => simp at h
                | cons b3 r3 =>
                  by_cases hc : 128 ≤ b1 ∧ b1 < 192 ∧ 128 ≤ b2 ∧ b2 < 192 ∧
                      128 ≤ b3 ∧ b3 < 192
                  · simp only [if_pos hc] at h
                    have := Option.some.inj h
                    have hr : r = r3 := congrArg Prod.snd this |>.symm
                    subst hr
                    simp
                    omega
                  · simp only [if_neg hc] at h
                    exact absurd h (by simp)
          · rw [if_neg h3, if_neg h4] at h
            exact absurd h (by simp)

/-- UTF-8 decoding back to code points; `none` on malformed input. -/
def utf8Decode (l : List Nat) : Option (List Nat) :=
  if hl : l = [] then some []
  else
    match hone : utf8DecodeOne l with
    | some (cp, r) => (utf8Decode r).map (fun t => cp :: t)
    | none => none
termination_by l.length
decreasing_by
  exact utf8DecodeOne_lt l cp r hone

/-- The base64 alphabet. -/
def b64Chars : List Char :=
  ("ABCDEFGHIJKLMNOPQRSTUVWXYZabcdefghijklmnopqrstuvwxyz0123456789+/").toList

/-- Character of one sextet. -/
def b64Char (k : Nat) : Char :=
  b64Chars.getD k 'A'

/-- Standard base64 encoding with padding, as produced by
`buf.toString('base64')`. -/
def base64Encode : List Nat → List Char
  | [] => []
  | [b0] => [b64Char (b0 / 4), b64Char (b0 % 4 * 16), '=', '=']
  | [b0, b1] => [b64Char (b0 / 4), b64Char (b0 % 4 * 16 + b1 / 16),
      b64Char (b1 % 16 * 4), '=']
  | b0 :: b1 :: b2 :: rest =>
    b64Char (b0 / 4) :: b64Char (b0 % 4 * 16 + b1 / 16) ::
      b64Char (b1 % 16 * 4 + b2 / 64) :: b64Char (b2 % 64) :: base64Encode rest

/-- Index of a character in the base64 alphabet; `none` for
characters outside it. -/
def b64Index (ch : Char) : Option Nat :=
  let i := b64Chars.indexOf ch
  if i < 64 then some i else none

/-- Base64 decoding; `none` on malformed input. -/
def base64Decode : List Char → Option (List Nat)
  | [] => some []
  | c0 :: c1 :: c2 :: c3 :: rest =>
    if c2 = '=' ∧ c3 = '=' ∧ rest = [] then
      match b64Index c0, b64Index c1 with
      | some k0, some k1 =>
        if k1 % 16 = 0 then some [k0 * 4 + k1 / 16] else none
      | _, _ => none
    else if c3 = '=' ∧ rest = [] then
      match b64Index c0, b64Index c1, b64Index c2 with
      | some k0, some k1, some k2 =>
        if k2 % 4 = 0 then some [k0 * 4 + k1 / 16, k1 % 16 * 16 + k2 / 4] else none
      | _, _, _ => none
    else
      match b64Index c0, b64Index c1, b64Index c2, b64Index c3, base64Decode rest with
      | some k0, some k1, some k2, some k3, some tail =>
        some ((k0 * 4 + k1 / 16) :: (k1 % 16 * 16 + k2 / 4) :: (k2 % 4 * 64 + k3) :: tail)
      | _, _, _, _, _ => none
  | _ => none

/-- The value returned by `bufferFromData(data)`: the base64 encoding
of the UTF-8 bytes of the input, and the byte length. -/
structure BufferInfo where
  base64 : List Char
  length : Nat
deriving DecidableEq, Repr

/-- Model of `bufferFromData` in buffer.ts: build the UTF-8 buffer of
the input and return its base64 string together with its length. -/
def bufferFromData (data : List Char) : BufferInfo :=
  { base64 := base64Encode (utf8Encode data), length := (utf8Encode data).length }

theorem utf8DecodeOne_encodeChar (n : Nat) (h : n < 2097152) (rest : List Nat) :
    utf8DecodeOne (utf8EncodeChar n ++ rest) = some (n, rest) := by
  by_cases h1 : n < 128
  · rw [utf8EncodeChar, if_pos h1, List.cons_append, List.nil_append]
    simp only [utf8DecodeOne, if_pos h1]
  · by_cases h2 : n < 2048
    · rw [utf8EncodeChar, if_neg h1, if_pos h2]
      show utf8DecodeOne ((192 + n / 64) :: (128 + n % 64) :: rest) = _
      have c1 : ¬ (192 + n / 64 < 128) := by omega
      have c2 : 192 + n / 64 < 224 := by omega
      have c3 : 192 ≤ 192 + n / 64 ∧ 128 ≤ 128 + n % 64 ∧ 128 + n % 64 < 192 :=
        ⟨by omega, by omega, by omega⟩
      have heq : (192 + n / 64 - 192) * 64 + (128 + n % 64 - 128) = n := by omega
      simp only [utf8DecodeOne, if_neg c1, if_pos c2, if_pos c3, heq]
    · by_cases h3 : n < 65536
      · rw [utf8EncodeChar, if_neg h1, if_neg h2, if_pos h3]
        show utf8DecodeOne
          ((224 + n / 4096) :: (128 + n / 64 % 64) :: (128 + n % 64) :: rest) = _
        have c1 : ¬ (224 + n / 4096 < 128) := by omega
        have c2 : ¬ (224 + n / 4096 < 224) := by omega
        have c3 : 224 + n / 4096 < 240 := by omega
        have c4 : 128 ≤ 128 + n / 64 % 64 ∧ 128 + n / 64 % 64 < 192 ∧
            128 ≤ 128 + n % 64 ∧ 128 + n % 64 < 192 :=
          ⟨by omega, by omega, by omega, by omega⟩
        have heq : (224 + n / 4096 - 224) * 4096 + (128 + n / 64 % 64 - 128) * 64 +
            (128 + n % 64 - 128) = n := by omega
        simp only [utf8DecodeOne, if_neg c1, if_neg c2, if_pos c3, if_pos c4, heq]
      · rw [utf8EncodeChar, if_neg h1, if_neg h2, if_neg h3]
        show utf8DecodeOne ((240 + n / 262144) :: (128 + n / 4096 % 64) ::
          (128 + n / 64 % 64) :: (128 + n % 64) :: rest) = _
        have c1 : ¬ (240 + n / 262144 < 128) := by omega
        have c2 : ¬ (240 + n / 262144 < 224) := by omega
        have c3 : ¬ (240 + n / 262144 < 240) := by omega
        have c4 : 240 + n / 262144 < 248 := by omega
        have c5 : 128 ≤ 128 + n / 4096 % 64 ∧ 128 + n / 4096 % 64 < 192 ∧
            128 ≤ 128 + n / 64 % 64 ∧ 128 + n / 64 % 64 < 192 ∧
            128 ≤ 128 + n % 64 ∧ 128 + n % 64 < 192 :=
          ⟨by omega, by omega, by omega, by omega, by omega, by omega⟩
        have heq : (240 + n / 262144 - 240) * 262144 +
            (128 + n / 4096 % 64 - 128) * 4096 +
            (128 + n / 64 % 64 - 128) * 64 + (128 + n % 64 - 128) = n := by omega
        simp only [utf8DecodeOne, if_neg c1, if_neg c2, if_neg c3, if_pos c4, if_pos c5, heq]

theorem utf8Decode_encodeChar (n : Nat) (h : n < 2097152) (rest : List Nat) :
    utf8Decode (utf8EncodeChar n ++ rest) =
      (utf8Decode rest).map (fun t => n :: t) := by
  have hone := utf8DecodeOne_encodeChar n h rest
  have hne : utf8EncodeChar n ++ rest ≠ [] := by
    intro hcon
    have hlen := congrArg List.length hcon
    have hpos := utf8EncodeChar_length_pos n
    simp only [List.length_append, List.length_nil] at hlen
    omega
  rw [utf8Decode, dif_neg hne]
  split
  next cp r heq =>
    rw [hone] at heq
    have h1 : cp = n := (congrArg Prod.fst (Option.some.inj heq)).symm
    have h2 : r = rest := (congrArg Prod.snd (Option.some.inj heq)).symm
    rw [h1, h2]
  next heq =>
    rw [hone] at heq
    exact absurd heq (by simp)

/-- Decoding the UTF-8 bytes of a string recovers its code points. -/
theorem utf8Decode_encode (s : List Char) :
    utf8Decode (utf8Encode s) = some (s.map Char.toNat) := by
  induction s with
  | nil => simp [utf8Decode, utf8Encode]
  | cons c t ih =>
    have hb : c.toNat < 2097152 := by
      have := char_toNat_lt c
      omega
    rw [utf8Encode, List.map_cons, List.flatten_cons]
    rw [show ((t.map (fun c => utf8EncodeChar c.toNat)).flatten : List Nat) =
      utf8Encode t from rfl]
    rw [utf8Decode_encodeChar _ hb, ih]
    simp

theorem utf8Encode_bytes_lt_256 (s : List Char) : ∀ b ∈ utf8Encode s, b < 256 := by
  intro b hb
  rw [utf8Encode] at hb
  obtain ⟨l, hl, hbl⟩ := List.mem_flatten.mp hb
  obtain ⟨c, _, rfl⟩ := List.mem_map.mp hl
  exact utf8EncodeChar_lt_256 c.toNat (by have := char_toNat_lt c; omega) b hbl

theorem utf8Encode_length_ge (s : List Char) : s.length ≤ (utf8Encode s).length := by
  induction s with
  | nil => simp [utf8Encode]
  | cons c t ih =>
    rw [utf8Encode, List.map_cons, List.flatten_cons]
    rw [show ((t.map (fun c => utf8EncodeChar c.toNat)).flatten : List Nat) =
      utf8Encode t from rfl]
    have := utf8EncodeChar_length_pos c.toNat
    simp only [List.length_append, List.length_cons]
    omega

/-- A string containing a non-ASCII character has strictly more UTF-8
bytes than characters. -/
theorem utf8Encode_length_gt (s : List Char) (c : Char) (hc : c ∈ s)
    (hna : 128 ≤ c.toNat) : s.length < (utf8Encode s).length := by
  induction s with
  | nil => simp at hc
  | cons a t ih =>
    rw [utf8Encode, List.map_cons, List.flatten_cons]
    rw [show ((t.map (fun c => utf8EncodeChar c.toNat)).flatten : List Nat) =
      utf8Encode t from rfl]
    simp only [List.length_append, List.length_cons]
    rcases List.mem_cons.mp hc with rfl | hmem
    · have h2 := utf8EncodeChar_length_two c.toNat hna
      have h3 := utf8Encode_length_ge t
      omega
    · have h1 := utf8EncodeChar_length_pos a.toNat
      have h2 := ih hmem
      omega

theorem b64Index_b64Char : ∀ k < 64, b64Index (b64Char k) = some k := by decide

theorem b64Char_ne_pad : ∀ k < 64, b64Char k ≠ '=' := by decide

theorem base64_roundtrip_aux : ∀ (n : Nat) (bytes : List Nat), bytes.length ≤ n →
    (∀ b ∈ bytes, b < 256) → base64Decode (base64Encode bytes) = some bytes := by
  intro n
  induction n with
  | zero =>
    intro bytes hlen _
    have : bytes = [] := List.eq_nil_of_length_eq_zero (by omega)
    subst this
    rfl
  | succ m ih =>
    intro bytes hlen hb
    match bytes with
    | [] => rfl
    | [b0] =>
      have h0 : b0 < 256 := hb b0 (by simp)
      rw [base64Encode, base64Decode]
      rw [if_pos ⟨rfl, rfl, rfl⟩]
      rw [b64Index_b64Char (b0 / 4) (by omega), b64Index_b64Char (b0 % 4 * 16) (by omega)]
      have heq : b0 / 4 * 4 + b0 % 4 * 16 / 16 = b0 := by omega
      simp only [if_pos (by omega : b0 % 4 * 16 % 16 = 0), heq]
    | [b0, b1] =>
      have h0 : b0 < 256 := hb b0 (by simp)
      have h1 : b1 < 256 := hb b1 (by simp)
      have hz := b64Char_ne_pad (b1 % 16 * 4) (by omega)
      rw [base64Encode, base64Decode]
      rw [if_neg (fun hcon => hz hcon.1)]
      rw [if_pos ⟨rfl, rfl⟩]
      rw [b64Index_b64Char (b0 / 4) (by omega),
        b64Index_b64Char (b0 % 4 * 16 + b1 / 16) (by omega),
        b64Index_b64Char (b1 % 16 * 4) (by omega)]
      have heq0 : b0 / 4 * 4 + (b0 % 4 * 16 + b1 / 16) / 16 = b0 := by omega
      have heq1 : (b0 % 4 * 16 + b1 / 16) % 16 * 16 + b1 % 16 * 4 / 4 = b1 := by omega
      simp only [if_pos (by omega : b1 % 16 * 4 % 4 = 0), heq0, heq1]
    | b0 :: b1 :: b2 :: rest =>
      have h0 : b0 < 256 := hb b0 (by simp)
      have h1 : b1 < 256 := hb b1 (by simp)
      have h2 : b2 < 256 := hb b2 (by simp)
      have hz2 := b64Char_ne_pad (b1 % 16 * 4 + b2 / 64) (by omega)
      have hz3 := b64Char_ne_pad (b2 % 64) (by omega)
      have hrec : base64Decode (base64Encode rest) = some rest := by
        apply ih rest (by simp only [List.length_cons] at hlen; omega)
        intro b hbm
        exact hb b (by simp [hbm])
      rw [base64Encode, base64Decode]
      rw [if_neg (fun hcon => hz2 hcon.1)]
      rw [if_neg (fun hcon => hz3 hcon.1)]
      rw [b64Index_b64Char (b0 / 4) (by omega),
        b64Index_b64Char (b0 % 4 * 16 + b1 / 16) (by omega),
        b64Index_b64Char (b1 % 16 * 4 + b2 / 64) (by omega),
        b64Index_b64Char (b2 % 64) (by omega), hrec]
      have heq0 : b0 / 4 * 4 + (b0 % 4 * 16 + b1 / 16) / 16 = b0 := by omega
      have heq1 : (b0 % 4 * 16 + b1 / 16) % 16 * 16 + (b1 % 16 * 4 + b2 / 64) / 4 = b1 := by
        omega
      have heq2 : (b1 % 16 * 4 + b2 / 64) % 4 * 64 + b2 % 64 = b2 := by omega
      simp only [heq0, heq1, heq2]

/-- Base64 decoding inverts base64 encoding on byte lists. -/
theorem base64_roundtrip (bytes : List Nat) (hb : ∀ b ∈ bytes, b < 256) :
    base64Decode (base64Encode bytes) = some bytes :=
  base64_roundtrip_aux bytes.length bytes le_rfl hb

/-! ## The claims -/

/-- C1 counterexample: the round-trip identity fails on the program
for astral characters.  U+1F600 is the surrogate pair (55357, 56832);
with chunk size 1 each pushed slice is a lone surrogate, which the
UTF-8 conversion turns into the replacement character U+FFFD (65533),
so the run resolves with output (65533, 65533), not the input. -/
theorem C1_counterexample :
    (manualBackpressure [55357, 56832] 1 noFail).2 =
      Except.ok ⟨[65533, 65533], 2⟩ ∧
    ([65533, 65533] : List Nat) ≠ [55357, 56832] := by
  constructor
  · simp [manualBackpressure, chunks, runLoop, offerBurst, completeBurst, hwm,
      noFail, List.enum, chunkBytes, chunkOut, utf16Scan, utf8EncodeChar,
      cpToUtf16, countPauses]
  · decide

/-- C1 amended: for every input free of surrogate code units (so
every chunk boundary falls between characters) and every chunk size
at least 1, the bounded pipeline run resolves with an output equal to
the original input: reassembly is lossless and order-preserving. -/
theorem C1_roundtrip (input : List Nat) (c : Nat) (hc : 1 ≤ c)
    (hwf : ∀ u ∈ input, u < 65536 ∧ ¬ (55296 ≤ u ∧ u < 57344)) :
    ∃ tr p, manualBackpressure input c noFail = (tr, Except.ok ⟨input, p⟩) := by
  obtain ⟨tr, htr, _⟩ := manualBackpressure_ok input c
  rw [output_eq_of_noSurrogate c input hwf] at htr
  exact ⟨tr, _, htr⟩

theorem C1_roundtrip_witness :
    (1 ≤ 2 ∧ ∀ u ∈ ([104, 105, 233] : List Nat),
      u < 65536 ∧ ¬ (55296 ≤ u ∧ u < 57344)) ∧
    ∃ tr p, manualBackpressure [104, 105, 233] 2 noFail =
      (tr, Except.ok ⟨[104, 105, 233], p⟩) :=
  ⟨⟨by decide, by decide⟩, C1_roundtrip [104, 105, 233] 2 (by decide) (by decide)⟩

/-- C2: if the consumer reports an error on a chunk that actually
occurs in the run, the run rejects with that single (first) failure,
the failure event is the last observable event (no further chunk is
offered after it), and no success result is ever produced. -/
theorem C2_consumer_error (input : List Nat) (c : Nat) (failAt : Nat → Bool)
    (hc : 1 ≤ c) (i : Nat) (hi : i < (chunks c input).length)
    (hfi : failAt i = true) :
    ∃ tr j, manualBackpressure input c failAt = (tr, Except.error j) ∧
      failAt j = true ∧ j < (chunks c input).length ∧
      (∀ k, k < j → failAt k = false) ∧
      tr.getLast? = some (Ev.failed j) ∧ Ev.finished ∉ tr :=
  manualBackpressure_err input c failAt i hi hfi

theorem C2_consumer_error_witness :
    (1 ≤ 2 ∧ 1 < (chunks 2 [97, 98, 99, 100]).length ∧
      (fun i => i == 1) 1 = true) ∧
    (∃ tr j, manualBackpressure [97, 98, 99, 100] 2 (fun i => i == 1) =
        (tr, Except.error j) ∧
      (fun i => i == 1) j = true ∧ j < (chunks 2 [97, 98, 99, 100]).length ∧
      (∀ k, k < j → (fun i => i == 1) k = false) ∧
      tr.getLast? = some (Ev.failed j) ∧ Ev.finished ∉ tr) :=
  ⟨⟨by decide, by simp [chunks], by decide⟩,
    C2_consumer_error [97, 98, 99, 100] 2 (fun i => i == 1) (by decide) 1
      (by simp [chunks]) (by decide)⟩

/-- C3 counterexample: the claim that a non-positive chunk size is
normalized to the default 2 is false on the code.  With chunk size 0
and the non-empty input "ab" the chunk production loop never finishes
(for no amount of fuel), whereas with the default chunk size 2 it
finishes immediately with the single chunk "ab". -/
theorem C3_counterexample :
    (¬ ∃ fuel, pushLoop [97, 98] 0 fuel 0 ≠ none) ∧
    pushLoop [97, 98] 2 3 0 = some [[97, 98]] := by
  constructor
  · rintro ⟨fuel, hfuel⟩
    exact hfuel (pushLoop_none_of_nonpos [97, 98] (by decide) 0 (by decide) fuel 0
      (by decide))
  · decide

/-- C3 amended: when the chunk size argument is unspecified the
declared default 2 applies and the run settles with a result, whose
output is the full input whenever the input is free of surrogate code
units; a non-positive chunk size is not normalized: the chunk
production loop never finishes for a non-empty input, so the run
never settles. -/
theorem C3_default_and_nonpositive (input : List Nat) :
    (∃ tr r, manualBackpressure input defaultChunkSize noFail =
        (tr, Except.ok r) ∧
      ((∀ u ∈ input, u < 65536 ∧ ¬ (55296 ≤ u ∧ u < 57344)) →
        r.output = input)) ∧
    (input ≠ [] → ∀ (c : Int), c ≤ 0 → ∀ fuel, pushLoop input c fuel 0 = none) := by
  constructor
  · obtain ⟨tr, htr, _⟩ := manualBackpressure_ok input defaultChunkSize
    refine ⟨tr, _, htr, ?_⟩
    intro hwf
    exact output_eq_of_noSurrogate defaultChunkSize input hwf
  · intro hne c hcle fuel
    exact pushLoop_none_of_nonpos input hne c hcle fuel 0 le_rfl

theorem C3_default_and_nonpositive_witness :
    (∃ tr r, manualBackpressure [97, 98] defaultChunkSize noFail =
        (tr, Except.ok r) ∧
      ((∀ u ∈ ([97, 98] : List Nat), u < 65536 ∧ ¬ (55296 ≤ u ∧ u < 57344)) →
        r.output = [97, 98])) ∧
    pushLoop [97, 98] (-1) 5 0 = none :=
  ⟨(C3_default_and_nonpositive [97, 98]).1,
    (C3_default_and_nonpositive [97, 98]).2 (by decide) (-1) (by decide) 5⟩

/-- C4: for the empty input string the bounded pipeline resolves with
empty output and pause count 0; the trace is just the finish event, so
no chunk is ever offered. -/
theorem C4_empty_input (c : Nat) (hc : 1 ≤ c) :
    manualBackpressure [] c noFail = ([Ev.finished], Except.ok ⟨[], 0⟩) := by
  rw [manualBackpressure, chunks_nil]
  simp [runLoop]

theorem C4_empty_input_witness :
    1 ≤ 2 ∧ manualBackpressure [] 2 noFail = ([Ev.finished], Except.ok ⟨[], 0⟩) :=
  ⟨by decide, C4_empty_input 2 (by decide)⟩

/-- C5 counterexample: the claim that inputs shorter than high-water
mark times chunk size never pause is false on the code.  Input "ab"
with chunk size 2 has length 2, less than hwm * 2 = 4, yet the run
pauses once: the single 2-byte chunk already reaches the 2-byte
high-water mark of the writable. -/
theorem C5_counterexample :
    ([97, 98] : List Nat).length < hwm * 2 ∧
    (manualBackpressure [97, 98] 2 noFail).2 = Except.ok ⟨[97, 98], 1⟩ ∧
    (1 : Nat) ≠ 0 := by
  refine ⟨by decide, ?_, by decide⟩
  simp [manualBackpressure, chunks, runLoop, offerBurst, completeBurst, hwm,
    noFail, List.enum, chunkBytes, chunkOut, utf16Scan, utf8EncodeChar,
    cpToUtf16, countPauses]

/-- C5 amended: the pause count is 0 for inputs whose UTF-8 byte
length is below the high-water mark (2 bytes): the empty input and
single ASCII characters.  The bound is on bytes, not characters: the
one-character input U+00E9 is a 2-byte chunk and does pause. -/
theorem C5_short_input_no_pause (input : List Nat) (c : Nat) (hc : 1 ≤ c)
    (hb : chunkBytes input < hwm) :
    ∃ tr, manualBackpressure input c noFail = (tr, Except.ok ⟨input, 0⟩) := by
  obtain ⟨tr, htr, _⟩ := manualBackpressure_ok input c
  refine ⟨tr, ?_⟩
  cases input with
  | nil =>
    rw [htr, chunks_nil]
    simp [countPauses]
  | cons u t =>
    cases t with
    | nil =>
      have hu : u < 128 := by
        by_contra hcon
        have h2 := chunkBytes_single_ge2 u (by omega)
        simp only [hwm] at hb
        omega
      have hch : chunks c [u] = [[u]] := by
        simp [chunks, chunks_nil]
      rw [htr, hch]
      have h1 : chunkOut [u] = [u] := by
        apply chunkOut_eq_self
        intro x hx
        simp only [List.mem_singleton] at hx
        subst hx
        constructor
        · omega
        · omega
      have h2 : chunkBytes [u] = 1 := by
        have := chunkBytes_ascii [u] (by
          intro x hx
          simp only [List.mem_singleton] at hx
          omega)
        simpa using this
      simp [h1, h2, countPauses, hwm]
    | cons v rest =>
      exfalso
      have h2 := chunkBytes_two_ge2 u v rest
      simp only [hwm] at hb
      omega

theorem C5_short_input_no_pause_witness :
    (1 ≤ 1 ∧ chunkBytes [97] < hwm) ∧
    ∃ tr, manualBackpressure [97] 1 noFail = (tr, Except.ok ⟨[97], 0⟩) :=
  ⟨⟨by decide, by decide⟩, C5_short_input_no_pause [97] 1 (by decide) (by decide)⟩

/-- C6 counterexample: the pause count is not monotone in the input
length on the program.  With chunk size 1 the two-character input
U+00E9 U+00E9 (2 UTF-8 bytes per chunk) pauses twice, while the
longer three-character ASCII input "abc" pauses once. -/
theorem C6_counterexample :
    ([233, 233] : List Nat).length ≤ ([97, 98, 99] : List Nat).length ∧
    pausesOf [233, 233] 1 = 2 ∧ pausesOf [97, 98, 99] 1 = 1 := by
  refine ⟨by decide, ?_, ?_⟩ <;>
    simp [pausesOf, manualBackpressure, chunks, runLoop, offerBurst,
      completeBurst, hwm, noFail, List.enum, chunkBytes, chunkOut, utf16Scan,
      utf8EncodeChar, cpToUtf16, countPauses]

/-- C6 amended: an input whose UTF-8 byte length reaches the
high-water mark pauses at least once; the pause count is monotone in
the input length for ASCII inputs (where bytes equal characters),
while for non-ASCII inputs monotonicity fails (see the
counterexample). -/
theorem C6_pauses (c : Nat) (s t : List Nat) (hc : 1 ≤ c) :
    (hwm ≤ chunkBytes s → 1 ≤ pausesOf s c) ∧
    ((∀ u ∈ s, u < 128) → (∀ u ∈ t, u < 128) → s.length ≤ t.length →
      pausesOf s c ≤ pausesOf t c) := by
  constructor
  · intro hbytes
    rw [pausesOf_eq]
    by_contra hcon
    have h0 : countPauses ((chunks c s).map chunkBytes) 0 = 0 := by omega
    have hsne : s ≠ [] := by
      intro hnil
      subst hnil
      rw [chunkBytes_nil] at hbytes
      simp [hwm] at hbytes
    have hcne : (chunks c s).map chunkBytes ≠ [] := by
      rw [chunks_cons_eq c hc s hsne]
      simp
    have hsum := countPauses_eq_zero_sum _ 0 hcne h0
    have hle := chunkBytes_le_chunks_sum c hc s
    omega
  · intro hs ht hlen
    rw [pausesOf_eq, pausesOf_eq, chunks_map_bytes_ascii c s hs,
      chunks_map_bytes_ascii c t ht]
    by_cases hc1 : c = 1
    · subst hc1
      rw [countPauses_chunkLens_one, countPauses_chunkLens_one]
      omega
    · have hc2 : 2 ≤ c := by omega
      rw [countPauses_chunkLens_big c hc2, countPauses_chunkLens_big c hc2]
      have hdiv : s.length / c ≤ t.length / c := Nat.div_le_div_right hlen
      by_cases hs2 : 2 ≤ s.length % c
      · by_cases ht2 : 2 ≤ t.length % c
        · rw [if_pos hs2, if_pos ht2]
          omega
        · rw [if_pos hs2, if_neg ht2]
          have hlt : s.length / c < t.length / c := by
            rcases Nat.lt_or_ge (s.length / c) (t.length / c) with h | h
            · exact h
            · exfalso
              have heq : s.length / c = t.length / c := le_antisymm hdiv h
              have h1 := Nat.div_add_mod s.length c
              have h2 := Nat.div_add_mod t.length c
              rw [heq] at h1
              set K := c * (t.length / c) with hK
              omega
          omega
      · rw [if_neg hs2]
        split <;> omega

theorem C6_pauses_witness :
    1 ≤ 2 ∧ (hwm ≤ chunkBytes [97, 98] ∧ 1 ≤ pausesOf [97, 98] 2) ∧
    ((∀ u ∈ ([97, 98] : List Nat), u < 128) ∧
      (∀ u ∈ ([97, 98, 99, 100] : List Nat), u < 128) ∧
      ([97, 98] : List Nat).length ≤ ([97, 98, 99, 100] : List Nat).length ∧
      pausesOf [97, 98] 2 ≤ pausesOf [97, 98, 99, 100] 2) :=
  ⟨by decide,
    ⟨by decide, (C6_pauses 2 [97, 98] [97, 98, 99, 100] (by decide)).1 (by decide)⟩,
    ⟨by decide, by decide, by decide,
      (C6_pauses 2 [97, 98] [97, 98, 99, 100] (by decide)).2 (by decide) (by decide)
        (by decide)⟩⟩

/-- C7 counterexample: `toUpperCase` is not a character-wise map on
the program: the single character U+00DF uppercases to the
two-character string "SS", and U+00E9 shows the map is not the
identity outside ASCII either. -/
theorem C7_counterexample :
    pipeToUppercase [223] = [83, 83] ∧
    (pipeToUppercase [223]).length ≠ ([223] : List Nat).length ∧
    pipeToUppercase [233] = [201] := by
  refine ⟨?_, ?_, ?_⟩ <;> decide

/-- C7 amended: restricted to ASCII inputs, the uppercase transform
run resolves with the character-wise ASCII upper-case mapping of the
input, is idempotent, and maps "node" to "NODE". -/
theorem C7_uppercase_ascii (s : List Nat) (hs : ∀ u ∈ s, u < 128) :
    pipeToUppercase s = s.map upCode ∧
    pipeToUppercase (pipeToUppercase s) = pipeToUppercase s ∧
    pipeToUppercase [110, 111, 100, 101] = [78, 79, 68, 69] := by
  have h1 := pipeToUppercase_ascii_map s hs
  refine ⟨h1, ?_, by decide⟩
  have hup : ∀ u ∈ s.map upCode, u < 128 := by
    intro u hu
    obtain ⟨x, hx, rfl⟩ := List.mem_map.mp hu
    exact upCode_lt_128 x (hs x hx)
  rw [h1, pipeToUppercase_ascii_map (s.map upCode) hup, List.map_map]
  apply List.map_congr_left
  intro u _
  exact upCode_idem u

theorem C7_uppercase_ascii_witness :
    (∀ u ∈ ([110, 111, 100, 101] : List Nat), u < 128) ∧
    pipeToUppercase [110, 111, 100, 101] = ([110, 111, 100, 101] : List Nat).map upCode :=
  ⟨by decide, (C7_uppercase_ascii [110, 111, 100, 101] (by decide)).1⟩

/-- C8: the concrete scenario input "abcdefgh" with chunk size 2: the
run resolves with output "abcdefgh" and at least one pause (in fact
four: each 2-byte chunk reaches the 2-byte high-water mark). -/
theorem C8_concrete :
    ∃ p, (manualBackpressure [97, 98, 99, 100, 101, 102, 103, 104] 2 noFail).2 =
      Except.ok ⟨[97, 98, 99, 100, 101, 102, 103, 104], p⟩ ∧ 1 ≤ p := by
  refine ⟨4, ?_, by decide⟩
  simp [manualBackpressure, chunks, runLoop, offerBurst, completeBurst, hwm,
    noFail, List.enum, chunkBytes, chunkOut, utf16Scan, utf8EncodeChar,
    cpToUtf16, countPauses]

/-- C9: the one-shot observer property of the event helpers: a
listener registered with once fires exactly once, on the first
subsequent emission of its event, with that emission message, and
never fires again. -/
theorem C9_once_delivery (pre mid post : List ECmd) (e : String) (k : Nat)
    (m : String)
    (hpre : ∀ cmd ∈ pre, registersId cmd k = false)
    (hmidr : ∀ cmd ∈ mid, registersId cmd k = false)
    (hpost : ∀ cmd ∈ post, registersId cmd k = false)
    (hmide : ∀ cmd ∈ mid, emitsEvent cmd e = false) :
    deliveredTo k (erun (pre ++ ECmd.once e k :: (mid ++ ECmd.emit e m :: post))).2
      = [m] :=
  erun_one_shot pre mid post e k m hpre hmidr hpost hmide

theorem C9_once_delivery_witness :
    deliveredTo 1 (erun ([ECmd.once "fileUploaded" 5] ++ ECmd.once "ping" 1 ::
      ([ECmd.emit "fileUploaded" "f.txt", ECmd.once "ping" 9] ++
        ECmd.emit "ping" "hello" :: [ECmd.emit "ping" "again"]))).2 = ["hello"] :=
  C9_once_delivery [ECmd.once "fileUploaded" 5]
    [ECmd.emit "fileUploaded" "f.txt", ECmd.once "ping" 9]
    [ECmd.emit "ping" "again"] "ping" 1 "hello"
    (by decide) (by decide) (by decide) (by decide)

/-- C10: bufferFromData returns the base64 encoding of the UTF-8
bytes of the input and the UTF-8 byte length; the byte length strictly
exceeds the character count when the input has a non-ASCII character;
base64-decoding the result recovers the exact byte sequence, and
UTF-8-decoding those bytes recovers the input code points. -/
theorem C10_bufferFromData (data : List Char) :
    (bufferFromData data).base64 = base64Encode (utf8Encode data) ∧
    (bufferFromData data).length = (utf8Encode data).length ∧
    ((∃ ch ∈ data, 128 ≤ ch.toNat) → data.length < (bufferFromData data).length) ∧
    base64Decode (bufferFromData data).base64 = some (utf8Encode data) ∧
    utf8Decode (utf8Encode data) = some (data.map Char.toNat) := by
  refine ⟨rfl, rfl, ?_, ?_, utf8Decode_encode data⟩
  · rintro ⟨ch, hmem, hge⟩
    exact utf8Encode_length_gt data ch hmem hge
  · exact base64_roundtrip _ (utf8Encode_bytes_lt_256 data)

theorem C10_bufferFromData_witness :
    (Char.ofNat 233 ∈ [Char.ofNat 233] ∧ 128 ≤ (Char.ofNat 233).toNat) ∧
    ([Char.ofNat 233] : List Char).length < (bufferFromData [Char.ofNat 233]).length :=
  ⟨⟨by decide, by decide⟩, (C10_bufferFromData [Char.ofNat 233]).2.2.1
    ⟨Char.ofNat 233, by decide, by decide⟩⟩

end NodeConcepts
